import Mathlib

/-!
Verification development for the persistent longest-prefix-match trie of the
addrs repository (file ipv6/node.go, key width W = 128).

Modelling choices:
- The 128-bit key type uint128 is modelled from the spec (its source file is
  not part of the trie source): keys are natural numbers kept below 2 ^ 128,
  with bitwise operations taken modulo 2 ^ 128 and big-endian bit positions
  (position 0 is the most significant bit, i.e. testBit (127 - i)).
- Go pointers are modelled by tagging every allocated node with an allocation
  id drawn from a counter that is threaded through every operation, exactly
  one fresh id per Go allocation site.  Go pointer equality of two nodes is
  equality of their ids (ptrEq); the nil pointer is the TrieNode.nil value.
- The Go struct comparison on dereferenced nodes used by copyMutate compares
  the Prefix, Data, size, h and isActive fields by value and the two child
  pointers by pointer, which shallowEq reproduces.
- Go interface values for Data are modelled by Option alpha, the nil
  interface being none.  Errors built with fmt.Errorf are modelled by the
  GoErr enumeration, one constructor per distinct message in the source.
- uint32 / uint16 conversions and arithmetic on the cached size and height
  fields are modelled with explicit reductions modulo 2 ^ 32 and 2 ^ 16.
-/

set_option linter.unusedVariables false
set_option linter.unnecessarySeqFocus false

namespace Addrs

/-- Modelled from the spec: the all-ones 128-bit key
(uint128 with both halves 0xffffffffffffffff). -/
def mask128 : Nat := 2 ^ 128 - 1

/-- Modelled from the spec: logical left shift of a 128-bit key
(bits shifted above position 127 are discarded). -/
def leftShift (x n : Nat) : Nat := (x <<< n) % 2 ^ 128

/-- Modelled from the spec: logical right shift of a 128-bit key. -/
def rightShift (x n : Nat) : Nat := x >>> n

/-- Modelled from the spec: bitwise AND of 128-bit keys. -/
def uand (x y : Nat) : Nat := x &&& y

/-- Modelled from the spec: bitwise XOR of 128-bit keys. -/
def uxor (x y : Nat) : Nat := x ^^^ y

/-- Modelled from the spec: bitwise NOT of a 128-bit key. -/
def ucomplement (x : Nat) : Nat := x ^^^ mask128

/-- Fuel-bounded binary length of a natural number (number of binary digits);
128 units of fuel are enough for any 128-bit key. -/
def bitlen : Nat → Nat → Nat
  | 0, _ => 0
  | fuel + 1, x => if x = 0 then 0 else bitlen fuel (x / 2) + 1

/-- Modelled from the spec: count of leading zeros of a 128-bit key,
128 for the zero key. -/
def leadingZeros (x : Nat) : Nat := 128 - bitlen 128 x

/-- Big-endian bit of a 128-bit key: beBit a i is the bit of a at position i
counting from the most significant end, as 0 or 1. -/
def beBit (a i : Nat) : Nat := if a.testBit (127 - i) then 1 else 0

/-- Mask selecting the first n big-endian bits (all-ones shifted left by 128 - n). -/
def topMask (n : Nat) : Nat := leftShift mask128 (128 - n)

/-- The first n big-endian bits of a and b agree, expressed by the same mask
comparison the source uses. -/
def agreeUpTo (n a b : Nat) : Bool := uand a (topMask n) == uand b (topMask n)

/-- Prefix from the source: a 128-bit address (the ui field of the nested
Address struct is inlined) together with a length in 0..128. -/
structure Prefix where
  addr : Nat
  length : Nat
deriving DecidableEq, Repr

/-- A prefix whose fields are representable in the Go types. -/
def validPfx (p : Prefix) : Bool := decide (p.length ≤ 128) && decide (p.addr < 2 ^ 128)

/-- contains from the source (node.go lines 50-68): compares whether the
shorter prefix contains the longer one.  Returns (matches, exact, common, child). -/
def contains (shorter longer : Prefix) : Bool × Bool × Nat × Nat :=
  let mask := leftShift mask128 (128 - shorter.length)
  let mtch := uand shorter.addr mask == uand longer.addr mask
  let (exact, common) :=
    if mtch then ((shorter.length == longer.length), shorter.length)
    else (false, leadingZeros (uxor shorter.addr longer.addr))
  let child :=
    if !exact then
      let pivotMask := rightShift (2 ^ 127) common
      if uand longer.addr pivotMask != 0 then 1 else 0
    else 0
  (mtch, exact, common, child)

/-- The four comparison results from the source (the compareSame etc. constants). -/
inductive Cmp where
  | compareSame
  | compareContains
  | compareIsContained
  | compareDisjoint
deriving DecidableEq, Repr

/-- compare from the source (node.go lines 78-98): relationship of two keys.
Returns (result, reversed, common, child). -/
def compare (a b : Prefix) : Cmp × Bool × Nat × Nat :=
  let reversed := decide (b.length < a.length)
  let (aMatch, bMatch, common, child) :=
    if reversed then
      let (m, e, c, ch) := contains b a
      (e, m, c, ch)
    else
      let (m, e, c, ch) := contains a b
      (m, e, c, ch)
  let result :=
    if aMatch && bMatch then Cmp.compareSame
    else if aMatch && !bMatch then Cmp.compareContains
    else if !aMatch && bMatch then Cmp.compareIsContained
    else Cmp.compareDisjoint
  (result, reversed, common, child)

/-- trieNode from the source.  nil models the nil pointer; a node carries its
allocation id (modelling its address), the Prefix, Data, cached size and
height, the isActive flag and the two children. -/
inductive TrieNode (α : Type) where
  | nil : TrieNode α
  | node (id : Nat) (pfx : Prefix) (Data : Option α) (size : Nat) (h : Nat)
      (isActive : Bool) (left right : TrieNode α) : TrieNode α
deriving DecidableEq, Repr

/-- The Go errors produced by insert and del, one constructor per message. -/
inductive GoErr where
  | keyAlreadyExists
  | keyDoesNotExistToUpdate
  | cannotDeleteFromNil
  | keyNotFound
deriving DecidableEq, Repr

namespace TrieNode

variable {α : Type}

/-- Whether this value is the nil pointer. -/
def isNil : TrieNode α → Bool
  | .nil => true
  | _ => false

/-- Allocation id of a node (0 for nil; never used on nil). -/
def idOf : TrieNode α → Nat
  | .nil => 0
  | .node i _ _ _ _ _ _ _ => i

/-- The Prefix field (never used on nil). -/
def pfxOf : TrieNode α → Prefix
  | .nil => ⟨0, 0⟩
  | .node _ p _ _ _ _ _ _ => p

/-- The Data field (never used on nil). -/
def dataOf : TrieNode α → Option α
  | .nil => none
  | .node _ _ d _ _ _ _ _ => d

/-- NumNodes from the source: the cached number of entries, 0 for nil. -/
def NumNodes : TrieNode α → Nat
  | .nil => 0
  | .node _ _ _ sz _ _ _ _ => sz

/-- height from the source: the cached height, 0 for nil. -/
def height : TrieNode α → Nat
  | .nil => 0
  | .node _ _ _ _ hh _ _ _ => hh

/-- active from the source: whether the node is an active entry, false for nil. -/
def active : TrieNode α → Bool
  | .nil => false
  | .node _ _ _ _ _ act _ _ => act

/-- children indexing from the source: child 0 is left, anything else right. -/
def getChild : TrieNode α → Nat → TrieNode α
  | .nil, _ => .nil
  | .node _ _ _ _ _ _ l r, c => if c == 0 then l else r

/-- Replace one child slot, keeping everything else. -/
def setChild : TrieNode α → Nat → TrieNode α → TrieNode α
  | .nil, _, _ => .nil
  | .node i p d sz hh act l r, c, x =>
      if c == 0 then .node i p d sz hh act x r else .node i p d sz hh act l x

/-- Set the isActive flag. -/
def setActive : TrieNode α → Bool → TrieNode α
  | .nil, _ => .nil
  | .node i p d sz hh _ l r, b => .node i p d sz hh b l r

/-- Set the Data field. -/
def withData : TrieNode α → Option α → TrieNode α
  | .nil, _ => .nil
  | .node i p _ sz hh act l r, d => .node i p d sz hh act l r

/-- Replace both children. -/
def withChildren : TrieNode α → TrieNode α → TrieNode α → TrieNode α
  | .nil, _, _ => .nil
  | .node i p d sz hh act _ _, l, r => .node i p d sz hh act l r

/-- Replace the allocation id (models copying the struct into a fresh allocation). -/
def setId : TrieNode α → Nat → TrieNode α
  | .nil, _ => .nil
  | .node _ p d sz hh act l r, i => .node i p d sz hh act l r

/-- Recompute the cached size and height fields from the children, as the tail
of mutate does in the source (with the Go uint32 / uint16 conversions). -/
def recompute : TrieNode α → TrieNode α
  | .nil => .nil
  | .node i p d _ _ act l r =>
      .node i p d (((l.NumNodes + r.NumNodes) % 2 ^ 32 + (if act then 1 else 0)) % 2 ^ 32)
        ((1 + max l.height r.height) % 2 ^ 16) act l r

/-- mutate from the source: run the mutator in place (the id is preserved),
then refresh the cached size and height. -/
def mutate (t : TrieNode α) (f : TrieNode α → TrieNode α) : TrieNode α :=
  match t with
  | .nil => .nil
  | _ => recompute (f t)

/-- Go pointer equality: nil equals nil, nodes are compared by allocation id. -/
def ptrEq : TrieNode α → TrieNode α → Bool
  | .nil, .nil => true
  | .node i _ _ _ _ _ _ _, .node j _ _ _ _ _ _ _ => i == j
  | _, _ => false

/-- The Go dereferenced struct comparison used by copyMutate: value fields by
value, child pointers by pointer. -/
def shallowEq [DecidableEq α] : TrieNode α → TrieNode α → Bool
  | .node _ p d sz hh act l r, .node _ p2 d2 sz2 hh2 act2 l2 r2 =>
      p == p2 && d == d2 && sz == sz2 && hh == hh2 && act == act2 && ptrEq l l2 && ptrEq r r2
  | _, _ => false

/-- copyMutate from the source: copy the node into a fresh allocation, mutate
the copy, and return the original when nothing observable changed. -/
def copyMutate [DecidableEq α] (t : TrieNode α) (f : TrieNode α → TrieNode α) (ctr : Nat) :
    TrieNode α × Nat :=
  match t with
  | .nil => (.nil, ctr)
  | _ =>
      let mutated := mutate (setId t ctr) f
      if shallowEq mutated t then (t, ctr + 1) else (mutated, ctr + 1)

/-- Equal from the source (node.go lines 134-157). -/
def Equal [DecidableEq α] : TrieNode α → TrieNode α → (Option α → Option α → Bool) → Bool
  | me, other, eqf =>
    if ptrEq me other then true
    else match me, other with
      | .nil, _ => false
      | _, .nil => false
      | .node _ p d _ _ act l r, .node _ p2 d2 _ _ act2 l2 r2 =>
        if act != act2 then false
        else if p != p2 then false
        else if act && !(eqf d d2) then false
        else if !(Equal l l2 eqf) then false
        else if !(Equal r r2 eqf) then false
        else true

/-- insertOpts from the source. -/
structure InsertOpts (α : Type) where
  insert : Bool
  update : Bool
  eq : Option α → Option α → Bool

/-- Result of insert: the new head, the error, and the final value of the node
object that was passed in (Go mutates it in place, and GetOrInsert reads it
back through its retained pointer). -/
structure InsRes (α : Type) where
  head : TrieNode α
  err : Option GoErr
  inserted : TrieNode α

/-- insert from the source (node.go lines 330-411).  The recursive call on a
nil receiver in the compareDisjoint branch is inlined (it is exactly the nil
case of this function).  The counter allocates ids for the fresh nodes made by
copyMutate and by the structural-join allocation. -/
def insert [DecidableEq α] : TrieNode α → TrieNode α → InsertOpts α → Nat → InsRes α × Nat
  | .nil, nd, opts, ctr =>
      if !opts.insert then (⟨.nil, some .keyDoesNotExistToUpdate, nd⟩, ctr)
      else
        let nd2 := mutate nd (fun n => setActive n true)
        (⟨nd2, none, nd2⟩, ctr)
  | me@(.node i p d sz hh act l r), nd, opts, ctr =>
      let (result, reversed, common, child) := compare p nd.pfxOf
      match result with
      | .compareSame =>
          if act && !opts.update then (⟨me, some .keyAlreadyExists, nd⟩, ctr)
          else if !act && !opts.insert then (⟨me, some .keyDoesNotExistToUpdate, nd⟩, ctr)
          else
            let newData := if act && opts.eq d nd.dataOf then d else nd.dataOf
            let nd2 := mutate nd (fun n => setActive (withChildren (withData n newData) l r) true)
            (⟨nd2, none, nd2⟩, ctr)
      | .compareContains =>
          let (res1, c1) := if child == 0 then insert l nd opts ctr else insert r nd opts ctr
          match res1.err with
          | some e => (⟨me, some e, res1.inserted⟩, c1)
          | none =>
              let (newNode, c2) := copyMutate me (fun n => setChild n child res1.head) c1
              (⟨newNode, none, res1.inserted⟩, c2)
      | .compareIsContained =>
          if !opts.insert then (⟨me, some .keyDoesNotExistToUpdate, nd⟩, ctr)
          else
            let nd2 := mutate nd (fun n => setActive (setChild n child me) true)
            (⟨nd2, none, nd2⟩, ctr)
      | .compareDisjoint =>
          if !opts.insert then (⟨me, some .keyDoesNotExistToUpdate, nd⟩, ctr)
          else
            let newChild := mutate nd (fun n => setActive n true)
            let (ch0, ch1) :=
              if (child == 1) != reversed then (me, newChild) else (newChild, me)
            let joinPfx : Prefix :=
              ⟨uand p.addr (ucomplement (rightShift mask128 common)), common⟩
            let newNode := recompute (.node ctr joinPfx none 0 0 false ch0 ch1)
            (⟨newNode, none, newChild⟩, ctr + 1)

/-- Match from the source (node.go lines 213-239): longest prefix match. -/
def Match : TrieNode α → Prefix → TrieNode α
  | .nil, _ => .nil
  | me@(.node _ p _ _ _ act l r), key =>
      if key.length < p.length then .nil
      else
        let (mtch, exact, _, child) := contains p key
        if !mtch then .nil
        else
          let better :=
            if exact then TrieNode.nil
            else if child == 0 then Match l key else Match r key
          if !better.isNil then better
          else if !act then .nil
          else me

/-- Result of GetOrInsert: the new head, the node whose Data is yielded to the
caller, and whether the Go code would have panicked (insert returned an error). -/
structure GetRes (α : Type) where
  head : TrieNode α
  result : TrieNode α
  panicked : Bool

/-- The deferred closure of GetOrInsert for the miss case: allocate a fresh
node for the search key and insert it with insert-only options (the Go eq
field is the nil function there; it is never called because update is false,
and the placeholder constant false function stands for it). -/
def getOrInsertMiss [DecidableEq α] (me : TrieNode α) (searchKey : Prefix) (data0 : Option α)
    (ctr : Nat) : GetRes α × Nat :=
  let res0 : TrieNode α := .node ctr searchKey data0 0 0 false .nil .nil
  let (r, c1) := insert me res0 ⟨true, false, fun _ _ => false⟩ (ctr + 1)
  (⟨r.head, r.inserted, r.err.isSome⟩, c1)

/-- GetOrInsert from the source (node.go lines 160-198). -/
def GetOrInsert [DecidableEq α] : TrieNode α → Prefix → Option α → Nat → GetRes α × Nat
  | .nil, key, data0, ctr => getOrInsertMiss .nil key data0 ctr
  | me@(.node _ p _ _ _ act l r), key, data0, ctr =>
      if key.length < p.length then getOrInsertMiss me key data0 ctr
      else
        let (mtch, exact, _, child) := contains p key
        if !mtch then getOrInsertMiss me key data0 ctr
        else if !exact then
          let (rec1, c1) :=
            if child == 0 then GetOrInsert l key data0 ctr else GetOrInsert r key data0 ctr
          let (newHead, c2) := copyMutate me (fun n => setChild n child rec1.head) c1
          (⟨newHead, rec1.result, rec1.panicked⟩, c2)
        else if !act then getOrInsertMiss me key data0 ctr
        else (⟨me, me, false⟩, ctr)

/-- deleteOpts from the source. -/
structure DeleteOpts where
  flatten : Bool

/-- reverseChild from the source. -/
def reverseChild (c : Nat) : Nat := (c + 1) % 2

/-- del from the source (node.go lines 427-483). -/
def del [DecidableEq α] : TrieNode α → Prefix → DeleteOpts → Nat → (TrieNode α × Option GoErr) × Nat
  | .nil, _, opts, ctr =>
      if opts.flatten then ((.nil, none), ctr)
      else ((.nil, some .cannotDeleteFromNil), ctr)
  | me@(.node i p d sz hh act l r), key, opts, ctr =>
      let (result, _, _, child) := compare p key
      match result with
      | .compareSame =>
          if opts.flatten then ((.nil, none), ctr)
          else if l.isNil then ((r, none), ctr)
          else if r.isNil then ((l, none), ctr)
          else
            let (newNode, c1) := copyMutate me (fun n => withData (setActive n false) none) ctr
            ((newNode, none), c1)
      | .compareContains =>
          let ((newChild, err), c1) :=
            if child == 0 then del l key opts ctr else del r key opts ctr
          match err with
          | some e => ((me, some e), c1)
          | none =>
              if newChild.isNil && !act then
                ((if reverseChild child == 0 then l else r, none), c1)
              else
                let (newNode, c2) := copyMutate me (fun n => setChild n child newChild) c1
                ((newNode, none), c2)
      | .compareIsContained =>
          if opts.flatten then ((.nil, none), ctr)
          else ((me, some .keyNotFound), ctr)
      | .compareDisjoint => ((me, some .keyNotFound), ctr)

/-- Insert from the source: public insert-only entry point.  It allocates the
node for the key (one fresh id) and calls insert.  The Go eq field is nil and
never called on this path; the constant false function stands for it. -/
def Insert [DecidableEq α] (me : TrieNode α) (key : Prefix) (data0 : Option α) (ctr : Nat) :
    (TrieNode α × Option GoErr) × Nat :=
  let nd : TrieNode α := .node ctr key data0 0 0 false .nil .nil
  let (r, c1) := insert me nd ⟨true, false, fun _ _ => false⟩ (ctr + 1)
  ((r.head, r.err), c1)

/-- Update from the source: update-only entry point. -/
def Update [DecidableEq α] (me : TrieNode α) (key : Prefix) (data0 : Option α)
    (eqf : Option α → Option α → Bool) (ctr : Nat) : (TrieNode α × Option GoErr) × Nat :=
  let nd : TrieNode α := .node ctr key data0 0 0 false .nil .nil
  let (r, c1) := insert me nd ⟨false, true, eqf⟩ (ctr + 1)
  ((r.head, r.err), c1)

/-- InsertOrUpdate from the source: upsert entry point; the Bool is whether the
Go code would have panicked (insert returned an error). -/
def InsertOrUpdate [DecidableEq α] (me : TrieNode α) (key : Prefix) (data0 : Option α)
    (eqf : Option α → Option α → Bool) (ctr : Nat) : (TrieNode α × Bool) × Nat :=
  let nd : TrieNode α := .node ctr key data0 0 0 false .nil .nil
  let (r, c1) := insert me nd ⟨true, true, eqf⟩ (ctr + 1)
  ((r.head, r.err.isSome), c1)

/-- Delete from the source: strict delete (flatten false). -/
def Delete [DecidableEq α] (me : TrieNode α) (key : Prefix) (ctr : Nat) :
    (TrieNode α × Option GoErr) × Nat :=
  del me key ⟨false⟩ ctr

/-- isValidLen from the source (node.go lines 274-298), with the Go uint32 and
uint16 conversions made explicit. -/
def isValidLen : TrieNode α → Nat → Bool
  | .nil, _ => true
  | .node _ p _ sz hh act l r, minLen =>
      let size0 := if act then (sz + (2 ^ 32 - 1)) % 2 ^ 32 else sz
      if !act && (l.isNil || r.isNil) then false
      else if size0 != (l.NumNodes + r.NumNodes) % 2 ^ 32 then false
      else if hh != (1 + (max l.height r.height) % 2 ^ 16) % 2 ^ 16 then false
      else if p.length < minLen then false
      else isValidLen l (p.length + 1) && isValidLen r (p.length + 1)

/-- isValid from the source. -/
def isValid (t : TrieNode α) : Bool := isValidLen t 0

/-- A prefix q sits properly under the point (plen, paddr) on side b: it is
strictly longer than plen, agrees with paddr on the first plen bits, and its
bit at position plen is b.  This is the per-child structural invariant that
the insert algorithm maintains (spec section 3, invariants 1 and 2). -/
def underPfx (plen paddr b : Nat) (q : Prefix) : Bool :=
  decide (plen < q.length) && agreeUpTo plen paddr q.addr && (beBit q.addr plen == b)

/-- The child invariant for one slot: a nil child is fine, a node child must
sit properly under its parent on its side. -/
def childOk (plen paddr b : Nat) : TrieNode α → Bool
  | .nil => true
  | .node _ q _ _ _ _ _ _ => underPfx plen paddr b q

/-- Full structural well-formedness of a trie (spec section 3, invariants
1 to 5): representable prefix, correct cached size and height, inactive nodes
have two children, and each child sits properly under its parent. -/
def wf : TrieNode α → Bool
  | .nil => true
  | .node _ p _ sz hh act l r =>
      validPfx p &&
      (sz == ((l.NumNodes + r.NumNodes) % 2 ^ 32 + (if act then 1 else 0)) % 2 ^ 32) &&
      (hh == (1 + max l.height r.height) % 2 ^ 16) &&
      (act || (!l.isNil && !r.isNil)) &&
      childOk p.length p.addr 0 l && childOk p.length p.addr 1 r &&
      wf l && wf r

/-- The active entries of a trie, as (prefix, data) pairs in lexicographic
order (left subtree, then self if active, then right subtree). -/
def entriesData : TrieNode α → List (Prefix × Option α)
  | .nil => []
  | .node _ p d _ _ act l r =>
      entriesData l ++ (if act then [(p, d)] else []) ++ entriesData r

/-- A prefix p contains a search key H when p is at most as long as H and the
first p.length bits of the two addresses agree (the containment relation used
by Match, stated through the same mask comparison the source uses). -/
def containsKey (p key : Prefix) : Bool :=
  decide (p.length ≤ key.length) && agreeUpTo p.length p.addr key.addr

/-- The node an exact-match search stops at, following exactly the descent of
GetOrInsert and Match: nil when the key is shorter than the node prefix, when
the node prefix does not contain the key, or when the exactly matching node is
inactive. -/
def findExact : TrieNode α → Prefix → TrieNode α
  | .nil, _ => .nil
  | me@(.node _ p _ _ _ act l r), key =>
      if key.length < p.length then .nil
      else
        let (mtch, exact, _, child) := contains p key
        if !mtch then .nil
        else if !exact then (if child == 0 then findExact l key else findExact r key)
        else if act then me else .nil

/-- Prefix equality in the sense of the spec data model (spec section 3):
equal lengths and equal first length bits; host bits may differ. -/
def specPfxEq (p q : Prefix) : Bool :=
  (p.length == q.length) && agreeUpTo p.length p.addr q.addr

/-- Tree correspondence in the sense of claim C7: corresponding nodes have
spec-equal prefixes, equal active flags, predicate-equal data on active nodes,
and recursively corresponding children. -/
def specTrieEq (eqf : Option α → Option α → Bool) : TrieNode α → TrieNode α → Bool
  | .nil, .nil => true
  | .node _ p d _ _ act l r, .node _ p2 d2 _ _ act2 l2 r2 =>
      specPfxEq p p2 && (act == act2) && (!act || eqf d d2) &&
      specTrieEq eqf l l2 && specTrieEq eqf r r2
  | _, _ => false

/-- Tree correspondence with exactly equal prefixes (all address bits and the
length): the amended hypothesis under which Equal returns true. -/
def exactTrieEq (eqf : Option α → Option α → Bool) : TrieNode α → TrieNode α → Bool
  | .nil, .nil => true
  | .node _ p d _ _ act l r, .node _ p2 d2 _ _ act2 l2 r2 =>
      (p == p2) && (act == act2) && (!act || eqf d d2) &&
      exactTrieEq eqf l l2 && exactTrieEq eqf r r2
  | _, _ => false

/-- All allocation ids in the tree are below c (so a fresh id from a counter
at or above c cannot collide with an existing node). -/
def idsBelow : TrieNode α → Nat → Bool
  | .nil, _ => true
  | .node i _ _ _ _ _ l r, c => decide (i < c) && idsBelow l c && idsBelow r c

/-- One mutating operation of the mutable view, for the operation-sequence
claim: Insert, Update, InsertOrUpdate, GetOrInsert or Delete. -/
inductive Op (α : Type) where
  | insertOp (key : Prefix) (data0 : Option α)
  | updateOp (key : Prefix) (data0 : Option α) (eqf : Option α → Option α → Bool)
  | insertOrUpdateOp (key : Prefix) (data0 : Option α) (eqf : Option α → Option α → Bool)
  | getOrInsertOp (key : Prefix) (data0 : Option α)
  | deleteOp (key : Prefix)

/-- The key of an operation. -/
def Op.key : Op α → Prefix
  | .insertOp k _ => k
  | .updateOp k _ _ => k
  | .insertOrUpdateOp k _ _ => k
  | .getOrInsertOp k _ => k
  | .deleteOp k => k

/-- Apply one operation to a root (with the allocation counter), taking the
returned head as the new root, as the mutable view facade does. -/
def applyOp [DecidableEq α] (st : TrieNode α × Nat) (op : Op α) : TrieNode α × Nat :=
  match op, st with
  | .insertOp k d0, (t, c) =>
      let ((h, _), c1) := Insert t k d0 c
      (h, c1)
  | .updateOp k d0 f, (t, c) =>
      let ((h, _), c1) := Update t k d0 f c
      (h, c1)
  | .insertOrUpdateOp k d0 f, (t, c) =>
      let ((h, _), c1) := InsertOrUpdate t k d0 f c
      (h, c1)
  | .getOrInsertOp k d0, (t, c) =>
      let (g, c1) := GetOrInsert t k d0 c
      (g.head, c1)
  | .deleteOp k, (t, c) =>
      let ((h, _), c1) := Delete t k c
      (h, c1)

/-- Run a sequence of operations starting from the empty (nil) trie. -/
def runOps [DecidableEq α] (ops : List (Op α)) : TrieNode α × Nat :=
  ops.foldl applyOp (TrieNode.nil, 0)

/-- A one-entry sample trie (an active 8-bit prefix holding 5) used to
instantiate the general theorems at a concrete input. -/
def sampleLeaf : TrieNode Nat := .node 0 ⟨0, 8⟩ (some 5) 1 1 true .nil .nil

end TrieNode

/-! Lemmas about the 128-bit key model. -/

theorem bitlen_zero (f : Nat) : bitlen f 0 = 0 := by
  cases f <;> simp [bitlen]

theorem bitlen_le {f x : Nat} (h : x < 2 ^ f) : bitlen f x ≤ f := by
  induction f generalizing x with
  | zero => simp [bitlen]
  | succ f ih =>
    unfold bitlen
    split
    · exact Nat.zero_le _
    · have h2 : 2 ^ (f + 1) = 2 ^ f * 2 := by rw [Nat.pow_succ]
      have hx : x / 2 < 2 ^ f := by omega
      exact Nat.succ_le_succ (ih hx)

theorem bitlen_pos {f x : Nat} (hx0 : x ≠ 0) (hx : x < 2 ^ f) : 1 ≤ bitlen f x := by
  cases f with
  | zero => simp at hx; omega
  | succ f =>
    unfold bitlen
    rw [if_neg hx0]
    omega

theorem testBit_ge_bitlen {f x j : Nat} (hx : x < 2 ^ f) (hj : bitlen f x ≤ j) :
    x.testBit j = false := by
  induction f generalizing x j with
  | zero =>
    have hx0 : x = 0 := by simpa using hx
    subst hx0; simp
  | succ f ih =>
    unfold bitlen at hj
    split at hj
    · next hx0 => subst hx0; simp
    · next hx0 =>
      cases j with
      | zero => omega
      | succ j =>
        rw [Nat.testBit_succ]
        have h2 : 2 ^ (f + 1) = 2 ^ f * 2 := by rw [Nat.pow_succ]
        have hx2 : x / 2 < 2 ^ f := by omega
        exact ih hx2 (by omega)

theorem testBit_bitlen {f x : Nat} (hx0 : x ≠ 0) (hx : x < 2 ^ f) :
    x.testBit (bitlen f x - 1) = true := by
  induction f generalizing x with
  | zero => simp at hx; omega
  | succ f ih =>
    unfold bitlen
    rw [if_neg hx0]
    by_cases hhalf : x / 2 = 0
    · have hx1 : x = 1 := by omega
      subst hx1
      simp [hhalf, bitlen_zero]
    · have h2 : 2 ^ (f + 1) = 2 ^ f * 2 := by rw [Nat.pow_succ]
      have hx2 : x / 2 < 2 ^ f := by omega
      have h1 := bitlen_pos hhalf hx2
      have hstep : bitlen f (x / 2) + 1 - 1 = (bitlen f (x / 2) - 1) + 1 := by omega
      rw [hstep, Nat.testBit_succ]
      exact ih hhalf hx2

theorem leadingZeros_le (x : Nat) : leadingZeros x ≤ 128 := Nat.sub_le _ _

theorem testBit_of_lt_leadingZeros {x i : Nat} (hx : x < 2 ^ 128) (hi : i < leadingZeros x) :
    x.testBit (127 - i) = false := by
  apply testBit_ge_bitlen hx
  unfold leadingZeros at hi
  omega

theorem leadingZeros_lt {x : Nat} (hx0 : x ≠ 0) (hx : x < 2 ^ 128) : leadingZeros x < 128 := by
  have h1 := bitlen_pos hx0 hx
  unfold leadingZeros
  omega

theorem testBit_leadingZeros {x : Nat} (hx0 : x ≠ 0) (hx : x < 2 ^ 128) :
    x.testBit (127 - leadingZeros x) = true := by
  have hb := testBit_bitlen hx0 hx
  have h1 := bitlen_pos hx0 hx
  have hle := bitlen_le hx
  have hidx : 127 - leadingZeros x = bitlen 128 x - 1 := by
    unfold leadingZeros
    omega
  rw [hidx]
  exact hb

theorem testBit_mask128 (j : Nat) : mask128.testBit j = decide (j < 128) := by
  unfold mask128
  exact Nat.testBit_two_pow_sub_one 128 j

theorem testBit_topMask (n j : Nat) :
    (topMask n).testBit j = (decide (128 - n ≤ j) && decide (j < 128)) := by
  unfold topMask leftShift
  rw [Nat.testBit_mod_two_pow, Nat.testBit_shiftLeft, testBit_mask128]
  by_cases h1 : j < 128 <;> by_cases h2 : 128 - n ≤ j <;>
    simp [h1, h2] <;> omega

theorem uand_lt_two_pow {a : Nat} (b : Nat) (ha : a < 2 ^ 128) : uand a b < 2 ^ 128 :=
  Nat.lt_of_le_of_lt Nat.and_le_left ha

theorem agreeUpTo_testBit {n a b : Nat} (hn : n ≤ 128) (h : agreeUpTo n a b = true)
    {i : Nat} (hi : i < n) : a.testBit (127 - i) = b.testBit (127 - i) := by
  unfold agreeUpTo uand at h
  have heq : a &&& topMask n = b &&& topMask n := eq_of_beq h
  have hbit := congrArg (fun x => x.testBit (127 - i)) heq
  simp only [Nat.testBit_and, testBit_topMask] at hbit
  have h1 : 128 - n ≤ 127 - i := by omega
  have h2 : 127 - i < 128 := by omega
  simpa [h1, h2] using hbit

theorem agreeUpTo_intro {n a b : Nat} (ha : a < 2 ^ 128) (hb : b < 2 ^ 128)
    (h : ∀ i, i < n → a.testBit (127 - i) = b.testBit (127 - i)) : agreeUpTo n a b = true := by
  unfold agreeUpTo uand
  apply beq_of_eq
  apply Nat.eq_of_testBit_eq
  intro j
  simp only [Nat.testBit_and, testBit_topMask]
  by_cases h1 : j < 128
  · by_cases h2 : 128 - n ≤ j
    · have hi : 127 - j < n := by omega
      have := h (127 - j) hi
      have hj : 127 - (127 - j) = j := by omega
      rw [hj] at this
      simp [this]
    · simp [h2]
  · have hj128 : (2 : Nat) ^ 128 ≤ 2 ^ j := Nat.pow_le_pow_right (by norm_num) (by omega)
    have ha0 : a.testBit j = false := Nat.testBit_lt_two_pow (Nat.lt_of_lt_of_le ha hj128)
    have hb0 : b.testBit j = false := Nat.testBit_lt_two_pow (Nat.lt_of_lt_of_le hb hj128)
    simp [ha0, hb0]

theorem agreeUpTo_refl (n a : Nat) : agreeUpTo n a a = true := by
  unfold agreeUpTo
  exact beq_of_eq rfl

theorem agreeUpTo_symm {n a b : Nat} (h : agreeUpTo n a b = true) : agreeUpTo n b a = true := by
  unfold agreeUpTo at h ⊢
  exact beq_of_eq (eq_of_beq h).symm

theorem agreeUpTo_trans {n a b c : Nat} (h1 : agreeUpTo n a b = true)
    (h2 : agreeUpTo n b c = true) : agreeUpTo n a c = true := by
  unfold agreeUpTo at h1 h2 ⊢
  exact beq_of_eq ((eq_of_beq h1).trans (eq_of_beq h2))

theorem agreeUpTo_mono {n m a b : Nat} (ha : a < 2 ^ 128) (hb : b < 2 ^ 128) (hnm : n ≤ m)
    (hm : m ≤ 128) (h : agreeUpTo m a b = true) : agreeUpTo n a b = true := by
  apply agreeUpTo_intro ha hb
  intro i hi
  exact agreeUpTo_testBit hm h (by omega)

theorem agreeUpTo_beBit {n a b : Nat} (hn : n ≤ 128) (h : agreeUpTo n a b = true)
    {i : Nat} (hi : i < n) : beBit a i = beBit b i := by
  unfold beBit
  rw [agreeUpTo_testBit hn h hi]

theorem uxor_lt_two_pow {a b : Nat} (ha : a < 2 ^ 128) (hb : b < 2 ^ 128) :
    uxor a b < 2 ^ 128 := Nat.xor_lt_two_pow ha hb

theorem agreeUpTo_leadingZeros_uxor {a b : Nat} (ha : a < 2 ^ 128) (hb : b < 2 ^ 128) :
    agreeUpTo (leadingZeros (uxor a b)) a b = true := by
  apply agreeUpTo_intro ha hb
  intro i hi
  have hxlt : uxor a b < 2 ^ 128 := uxor_lt_two_pow ha hb
  have hz := testBit_of_lt_leadingZeros hxlt hi
  unfold uxor at hz
  rw [Nat.testBit_xor] at hz
  cases h1 : a.testBit (127 - i) <;> cases h2 : b.testBit (127 - i) <;> simp_all

theorem beBit_leadingZeros_uxor_ne {a b : Nat} (hne : a ≠ b) (ha : a < 2 ^ 128)
    (hb : b < 2 ^ 128) :
    beBit a (leadingZeros (uxor a b)) ≠ beBit b (leadingZeros (uxor a b)) := by
  have hx0 : uxor a b ≠ 0 := by
    unfold uxor
    simpa [Nat.xor_eq_zero] using hne
  have hx := testBit_leadingZeros hx0 (uxor_lt_two_pow ha hb)
  unfold uxor at hx
  rw [Nat.testBit_xor] at hx
  unfold beBit
  intro hcontra
  cases h1 : a.testBit (127 - leadingZeros (a ^^^ b)) <;>
    cases h2 : b.testBit (127 - leadingZeros (a ^^^ b)) <;>
      simp_all [leadingZeros, uxor]

theorem leadingZeros_lt_of_not_agree {n a b : Nat} (ha : a < 2 ^ 128) (hb : b < 2 ^ 128)
    (hn : n ≤ 128) (h : agreeUpTo n a b = false) : leadingZeros (uxor a b) < n := by
  by_contra hge
  push_neg at hge
  have h2 := agreeUpTo_leadingZeros_uxor ha hb
  have h3 := agreeUpTo_mono ha hb hge (leadingZeros_le _) h2
  rw [h] at h3
  exact absurd h3 (by simp)

theorem pivot_child_eq_beBit {a c : Nat} (hc : c ≤ 127) :
    (if uand a (rightShift (2 ^ 127) c) != 0 then 1 else 0) = beBit a c := by
  unfold uand rightShift beBit
  rw [Nat.shiftRight_eq_div_pow, Nat.pow_div hc (by norm_num), Nat.and_two_pow]
  have hpow : (2 : Nat) ^ (127 - c) ≠ 0 := Nat.pos_iff_ne_zero.mp (Nat.pos_pow_of_pos _ (by norm_num))
  cases h : a.testBit (127 - c) <;> simp [h, hpow]

theorem ucomplement_rightShift_mask128 {c : Nat} (hc : c ≤ 128) :
    ucomplement (rightShift mask128 c) = topMask c := by
  unfold ucomplement rightShift
  apply Nat.eq_of_testBit_eq
  intro j
  rw [Nat.testBit_xor, Nat.testBit_shiftRight, testBit_mask128, testBit_mask128, testBit_topMask]
  by_cases h1 : j < 128 <;> by_cases h2 : c + j < 128 <;>
    simp [h1, h2] <;> omega

theorem agreeUpTo_uand_topMask {n a : Nat} (hn : n ≤ 128) (ha : a < 2 ^ 128) :
    agreeUpTo n (uand a (topMask n)) a = true := by
  apply agreeUpTo_intro (uand_lt_two_pow _ ha) ha
  intro i hi
  unfold uand
  rw [Nat.testBit_and, testBit_topMask]
  have h1 : 128 - n ≤ 127 - i := by omega
  have h2 : 127 - i < 128 := by omega
  simp [h1, h2]

theorem beBit_lt_two (a i : Nat) : beBit a i = 0 ∨ beBit a i = 1 := by
  unfold beBit
  cases a.testBit (127 - i) <;> simp

/-! Characterization of contains and compare. -/

theorem contains_def (s l : Prefix) :
    contains s l =
      (agreeUpTo s.length s.addr l.addr,
       agreeUpTo s.length s.addr l.addr && (s.length == l.length),
       if agreeUpTo s.length s.addr l.addr then s.length else leadingZeros (uxor s.addr l.addr),
       if agreeUpTo s.length s.addr l.addr && (s.length == l.length) then 0
       else
         (if uand l.addr
             (rightShift (2 ^ 127)
               (if agreeUpTo s.length s.addr l.addr then s.length
                else leadingZeros (uxor s.addr l.addr))) != 0
          then 1 else 0)) := by
  unfold contains agreeUpTo topMask
  by_cases hm : (uand s.addr (leftShift mask128 (128 - s.length)) ==
      uand l.addr (leftShift mask128 (128 - s.length))) = true
  · by_cases he : (s.length == l.length) = true <;> simp [hm, he]
  · rw [Bool.not_eq_true] at hm
    simp [hm]

theorem contains_components {s l : Prefix} {m e : Bool} {c0 ch0 : Nat}
    (h : contains s l = (m, e, c0, ch0)) :
    m = agreeUpTo s.length s.addr l.addr ∧
    e = (m && (s.length == l.length)) ∧
    c0 = (if m then s.length else leadingZeros (uxor s.addr l.addr)) ∧
    ch0 = (if e then 0 else if uand l.addr (rightShift (2 ^ 127) c0) != 0 then 1 else 0) := by
  rw [contains_def] at h
  simp only [Prod.mk.injEq] at h
  obtain ⟨h1, h2, h3, h4⟩ := h
  subst h1
  subst h2
  subst h3
  subst h4
  exact ⟨rfl, rfl, rfl, rfl⟩

theorem contains_exact_spec {s l : Prefix} {m e : Bool} {c0 ch0 : Nat}
    (h : contains s l = (m, e, c0, ch0)) (hm : m = true) (he : e = true) :
    s.length = l.length ∧ agreeUpTo s.length s.addr l.addr = true ∧ c0 = s.length := by
  obtain ⟨h1, h2, h3, h4⟩ := contains_components h
  subst hm he
  rw [h2] at h1 ⊢
  have hbeq : (s.length == l.length) = true := by
    cases hq : (s.length == l.length)
    · rw [hq] at h2
      simp at h2
    · rfl
  refine ⟨eq_of_beq hbeq, h1.symm, ?_⟩
  rw [h3]
  simp [← h2]

theorem contains_strict_spec {s l : Prefix} {m e : Bool} {c0 ch0 : Nat}
    (hsl : s.length ≤ l.length) (hl : l.length ≤ 128)
    (h : contains s l = (m, e, c0, ch0)) (hm : m = true) (he : e = false) :
    s.length < l.length ∧ agreeUpTo s.length s.addr l.addr = true ∧ c0 = s.length ∧
    ch0 = beBit l.addr s.length := by
  obtain ⟨h1, h2, h3, h4⟩ := contains_components h
  subst hm he
  have hbeq : (s.length == l.length) = false := by
    cases hq : (s.length == l.length)
    · rfl
    · rw [hq] at h2
      simp at h2
  have hne : s.length ≠ l.length := by
    intro hcontra
    rw [beq_of_eq hcontra] at hbeq
    simp at hbeq
  have hlt : s.length < l.length := by omega
  have hc0 : c0 = s.length := by
    rw [h3]
    simp
  refine ⟨hlt, h1.symm, hc0, ?_⟩
  rw [h4, hc0]
  simp only [Bool.false_eq_true, if_false]
  exact pivot_child_eq_beBit (by omega)

theorem compare_same_spec {a b : Prefix} {rev : Bool} {co ch : Nat}
    (h : compare a b = (Cmp.compareSame, rev, co, ch)) :
    a.length = b.length ∧ agreeUpTo a.length a.addr b.addr = true ∧ rev = false := by
  unfold compare at h
  by_cases hrev : b.length < a.length
  · simp only [hrev, decide_True] at h
    rcases hc : contains b a with ⟨m, e, c0, ch0⟩
    rw [hc] at h
    obtain ⟨h1, h2, h3, h4⟩ := contains_components hc
    have hbeq : (b.length == a.length) = false := beq_eq_false_iff_ne.mpr (by omega)
    rw [hbeq, Bool.and_false] at h2
    subst h2
    cases m <;> simp at h
  · simp only [hrev, decide_False] at h
    rcases hc : contains a b with ⟨m, e, c0, ch0⟩
    rw [hc] at h
    obtain ⟨h1, h2, h3, h4⟩ := contains_components hc
    cases hm : m <;> rw [hm] at h
    · rw [hm, Bool.false_and] at h2
      subst h2
      simp at h
    · cases he : e <;> rw [he] at h
      · simp at h
      · simp only [Bool.and_self, if_true, Prod.mk.injEq] at h
        obtain ⟨hcmp, hrv, hco, hch⟩ := h
        refine ⟨?_, ?_, hrv.symm⟩
        · rw [hm, Bool.true_and] at h2
          have : (a.length == b.length) = true := by rw [← h2, he]
          exact eq_of_beq this
        · rw [← h1, hm]

theorem compare_contains_spec {a b : Prefix} {rev : Bool} {co ch : Nat}
    (hb : b.length ≤ 128)
    (h : compare a b = (Cmp.compareContains, rev, co, ch)) :
    a.length < b.length ∧ co = a.length ∧ agreeUpTo a.length a.addr b.addr = true ∧
    ch = beBit b.addr a.length ∧ rev = false := by
  unfold compare at h
  by_cases hrev : b.length < a.length
  · simp only [hrev, decide_True] at h
    rcases hc : contains b a with ⟨m, e, c0, ch0⟩
    rw [hc] at h
    obtain ⟨h1, h2, h3, h4⟩ := contains_components hc
    have hbeq : (b.length == a.length) = false := beq_eq_false_iff_ne.mpr (by omega)
    rw [hbeq, Bool.and_false] at h2
    subst h2
    cases m <;> simp at h
  · simp only [hrev, decide_False] at h
    rcases hc : contains a b with ⟨m, e, c0, ch0⟩
    rw [hc] at h
    cases hm : m <;> rw [hm] at h
    · obtain ⟨h1, h2, h3, h4⟩ := contains_components hc
      rw [hm, Bool.false_and] at h2
      subst h2
      simp at h
    · cases he : e <;> rw [he] at h
      · simp only [Bool.true_and, Bool.not_false, Bool.and_self, Bool.and_false,
          Bool.false_eq_true, if_false, if_true, Prod.mk.injEq] at h
        obtain ⟨hcmp, hrv, hco, hch⟩ := h
        rw [hm] at hc
        rw [he] at hc
        obtain ⟨hlt, hagree, hc0, hch0⟩ :=
          contains_strict_spec (by omega) hb hc rfl rfl
        subst hco hch
        exact ⟨hlt, hc0, hagree, hch0, hrv.symm⟩
      · simp at h

theorem compare_isContained_spec {a b : Prefix} {rev : Bool} {co ch : Nat}
    (ha : a.length ≤ 128)
    (h : compare a b = (Cmp.compareIsContained, rev, co, ch)) :
    b.length < a.length ∧ co = b.length ∧ agreeUpTo b.length a.addr b.addr = true ∧
    ch = beBit a.addr b.length ∧ rev = true := by
  unfold compare at h
  by_cases hrev : b.length < a.length
  · simp only [hrev, decide_True] at h
    rcases hc : contains b a with ⟨m, e, c0, ch0⟩
    rw [hc] at h
    obtain ⟨h1, h2, h3, h4⟩ := contains_components hc
    have hbeq : (b.length == a.length) = false := beq_eq_false_iff_ne.mpr (by omega)
    rw [hbeq, Bool.and_false] at h2
    subst h2
    cases hm : m <;> rw [hm] at h
    · simp at h
    · simp only [Bool.false_and, Bool.not_false, Bool.true_and, Bool.false_eq_true,
        if_false, if_true, Bool.and_self, Prod.mk.injEq] at h
      obtain ⟨hcmp, hrv, hco, hch⟩ := h
      rw [hm] at hc
      obtain ⟨hlt2, hagree, hc0, hch0⟩ :=
        contains_strict_spec (by omega) ha hc rfl rfl
      subst hco hch
      exact ⟨hrev, hc0, agreeUpTo_symm hagree, hch0, hrv.symm⟩
  · simp only [hrev, decide_False] at h
    rcases hc : contains a b with ⟨m, e, c0, ch0⟩
    rw [hc] at h
    obtain ⟨h1, h2, h3, h4⟩ := contains_components hc
    cases hm : m <;> rw [hm] at h
    · rw [hm, Bool.false_and] at h2
      subst h2
      simp at h
    · cases he : e <;> rw [he] at h
      · simp at h
      · simp at h

theorem compare_disjoint_spec {a b : Prefix} {rev : Bool} {co ch : Nat}
    (ha : validPfx a = true) (hb : validPfx b = true)
    (h : compare a b = (Cmp.compareDisjoint, rev, co, ch)) :
    co ≤ 127 ∧ co < a.length ∧ co < b.length ∧ agreeUpTo co a.addr b.addr = true ∧
    (((ch == 1) != rev) = true → beBit a.addr co = 0 ∧ beBit b.addr co = 1) ∧
    (((ch == 1) != rev) = false → beBit a.addr co = 1 ∧ beBit b.addr co = 0) := by
  have haa : a.addr < 2 ^ 128 := by
    unfold validPfx at ha
    exact of_decide_eq_true (Bool.and_eq_true_iff.mp ha).2
  have hba : b.addr < 2 ^ 128 := by
    unfold validPfx at hb
    exact of_decide_eq_true (Bool.and_eq_true_iff.mp hb).2
  have hal : a.length ≤ 128 := by
    unfold validPfx at ha
    exact of_decide_eq_true (Bool.and_eq_true_iff.mp ha).1
  have hbl : b.length ≤ 128 := by
    unfold validPfx at hb
    exact of_decide_eq_true (Bool.and_eq_true_iff.mp hb).1
  unfold compare at h
  by_cases hrev : b.length < a.length
  · simp only [hrev, decide_True] at h
    rcases hc : contains b a with ⟨m, e, c0, ch0⟩
    rw [hc] at h
    obtain ⟨h1, h2, h3, h4⟩ := contains_components hc
    have hbeq : (b.length == a.length) = false := beq_eq_false_iff_ne.mpr (by omega)
    rw [hbeq, Bool.and_false] at h2
    subst h2
    cases hm : m <;> rw [hm] at h
    · simp only [Bool.false_and, Bool.not_false, Bool.and_false, Bool.and_true,
        Bool.false_eq_true, if_false, if_true, Bool.and_self, Prod.mk.injEq] at h
      obtain ⟨hcmp, hrv, hco, hch⟩ := h
      rw [hm] at h1 h3
      have hmagree : agreeUpTo b.length b.addr a.addr = false := h1.symm
      have hc0 : c0 = leadingZeros (uxor b.addr a.addr) := by
        rw [h3]
        simp
      have hcolt : c0 < b.length := by
        rw [hc0]
        exact leadingZeros_lt_of_not_agree hba haa hbl hmagree
      have hagree : agreeUpTo c0 b.addr a.addr = true := by
        rw [hc0]
        exact agreeUpTo_leadingZeros_uxor hba haa
      have hne : b.addr ≠ a.addr := by
        intro hcontra
        rw [hcontra, agreeUpTo_refl] at hmagree
        simp at hmagree
      have hdiff : beBit b.addr c0 ≠ beBit a.addr c0 := by
        rw [hc0]
        exact beBit_leadingZeros_uxor_ne hne hba haa
      have hch0 : ch0 = beBit a.addr c0 := by
        rw [h4, hc0]
        simp only [Bool.false_eq_true, if_false]
        rw [← hc0]
        exact pivot_child_eq_beBit (by omega)
      subst hco hch
      rw [← hrv]
      refine ⟨by omega, by omega, hcolt, agreeUpTo_symm hagree, ?_, ?_⟩
      · intro hcond
        have hne1 : (ch0 == 1) = false := by
          cases hq : (ch0 == 1)
          · rfl
          · rw [hq] at hcond
            simp at hcond
        have hchne : ch0 ≠ 1 := by
          intro hcontra
          rw [hcontra] at hne1
          simp at hne1
        rcases beBit_lt_two a.addr c0 with hb1 | hb1
        · rcases beBit_lt_two b.addr c0 with hb2 | hb2
          · rw [hb1, hb2] at hdiff
            simp at hdiff
          · exact ⟨hb1, hb2⟩
        · rw [hch0, hb1] at hchne
          omega
      · intro hcond
        have hne1 : (ch0 == 1) = true := by
          cases hq : (ch0 == 1)
          · rw [hq] at hcond
            simp at hcond
          · rfl
        have hch1 : ch0 = 1 := eq_of_beq hne1
        rw [hch1] at hch0
        rcases beBit_lt_two b.addr c0 with hb2 | hb2
        · exact ⟨hch0.symm, hb2⟩
        · rw [← hch0, hb2] at hdiff
          simp at hdiff
    · simp only [Bool.false_and, Bool.not_false, Bool.true_and, Bool.false_eq_true,
        if_false, if_true, Bool.and_self, Prod.mk.injEq] at h
      exact absurd h.1 (by simp)
  · simp only [hrev, decide_False] at h
    rcases hc : contains a b with ⟨m, e, c0, ch0⟩
    rw [hc] at h
    obtain ⟨h1, h2, h3, h4⟩ := contains_components hc
    cases hm : m <;> rw [hm] at h
    · rw [hm] at h1 h3
      rw [hm, Bool.false_and] at h2
      subst h2
      simp only [Bool.false_and, Bool.not_false, Bool.and_false, Bool.and_true,
        Bool.false_eq_true, if_false, Bool.and_self, Prod.mk.injEq] at h
      obtain ⟨hcmp, hrv, hco, hch⟩ := h
      have hmagree : agreeUpTo a.length a.addr b.addr = false := h1.symm
      have hc0 : c0 = leadingZeros (uxor a.addr b.addr) := by
        rw [h3]
        simp
      have hcolt : c0 < a.length := by
        rw [hc0]
        exact leadingZeros_lt_of_not_agree haa hba hal hmagree
      have hagree : agreeUpTo c0 a.addr b.addr = true := by
        rw [hc0]
        exact agreeUpTo_leadingZeros_uxor haa hba
      have hne : a.addr ≠ b.addr := by
        intro hcontra
        rw [hcontra, agreeUpTo_refl] at hmagree
        simp at hmagree
      have hdiff : beBit a.addr c0 ≠ beBit b.addr c0 := by
        rw [hc0]
        exact beBit_leadingZeros_uxor_ne hne haa hba
      have hch0 : ch0 = beBit b.addr c0 := by
        rw [h4, hc0]
        simp only [Bool.false_eq_true, if_false]
        rw [← hc0]
        exact pivot_child_eq_beBit (by omega)
      subst hco hch
      rw [← hrv]
      have hab : a.length ≤ b.length := by omega
      refine ⟨by omega, hcolt, by omega, hagree, ?_, ?_⟩
      · intro hcond
        have hne1 : (ch0 == 1) = true := by
          cases hq : (ch0 == 1)
          · rw [hq] at hcond
            simp at hcond
          · rfl
        have hch1 : ch0 = 1 := eq_of_beq hne1
        rw [hch1] at hch0
        rcases beBit_lt_two a.addr c0 with hb1 | hb1
        · exact ⟨hb1, hch0.symm⟩
        · rw [← hch0, hb1] at hdiff
          simp at hdiff
      · intro hcond
        have hne1 : (ch0 == 1) = false := by
          cases hq : (ch0 == 1)
          · rfl
          · rw [hq] at hcond
            simp at hcond
        have hchne : ch0 ≠ 1 := by
          intro hcontra
          rw [hcontra] at hne1
          simp at hne1
        rcases beBit_lt_two b.addr c0 with hb2 | hb2
        · rcases beBit_lt_two a.addr c0 with hb1 | hb1
          · rw [hb1, hb2] at hdiff
            simp at hdiff
          · exact ⟨hb1, hb2⟩
        · rw [hch0, hb2] at hchne
          omega
    · cases he : e <;> rw [he] at h
      · simp at h
      · simp at h

/-! Structural invariant helper lemmas. -/

theorem validPfx_iff {p : Prefix} : validPfx p = true ↔ p.length ≤ 128 ∧ p.addr < 2 ^ 128 := by
  unfold validPfx
  simp

namespace TrieNode

variable {α : Type}

theorem underPfx_iff {plen paddr b : Nat} {q : Prefix} :
    underPfx plen paddr b q = true ↔
      plen < q.length ∧ agreeUpTo plen paddr q.addr = true ∧ beBit q.addr plen = b := by
  unfold underPfx
  simp [and_assoc]

theorem childOk_nil {plen paddr b : Nat} : childOk plen paddr b (TrieNode.nil : TrieNode α) = true := rfl

theorem childOk_node {plen paddr b i : Nat} {q : Prefix} {d : Option α} {sz hh : Nat}
    {act : Bool} {l r : TrieNode α} :
    childOk plen paddr b (TrieNode.node i q d sz hh act l r) = underPfx plen paddr b q := rfl

theorem wf_node_iff {i : Nat} {p : Prefix} {d : Option α} {sz hh : Nat} {act : Bool}
    {l r : TrieNode α} :
    wf (TrieNode.node i p d sz hh act l r) = true ↔
      validPfx p = true ∧
      sz = ((l.NumNodes + r.NumNodes) % 2 ^ 32 + (if act then 1 else 0)) % 2 ^ 32 ∧
      hh = (1 + max l.height r.height) % 2 ^ 16 ∧
      (act = true ∨ (l.isNil = false ∧ r.isNil = false)) ∧
      childOk p.length p.addr 0 l = true ∧ childOk p.length p.addr 1 r = true ∧
      wf l = true ∧ wf r = true := by
  show (validPfx p && _ && _ && _ && _ && _ && _ && _) = true ↔ _
  simp only [Bool.and_eq_true, beq_iff_eq, Bool.or_eq_true, Bool.not_eq_true',
    isNil]
  constructor
  · rintro ⟨⟨⟨⟨⟨⟨⟨hv, hsz⟩, hhh⟩, hact⟩, hc0⟩, hc1⟩, hl⟩, hr⟩
    exact ⟨hv, hsz, hhh, by tauto, hc0, hc1, hl, hr⟩
  · rintro ⟨hv, hsz, hhh, hact, hc0, hc1, hl, hr⟩
    exact ⟨⟨⟨⟨⟨⟨⟨hv, hsz⟩, hhh⟩, by tauto⟩, hc0⟩, hc1⟩, hl⟩, hr⟩

theorem underPfx_transfer {plen paddr qaddr b : Nat} {q : Prefix}
    (hagree : agreeUpTo plen paddr qaddr = true)
    (h : underPfx plen paddr b q = true) : underPfx plen qaddr b q = true := by
  rw [underPfx_iff] at h ⊢
  exact ⟨h.1, agreeUpTo_trans (agreeUpTo_symm hagree) h.2.1, h.2.2⟩

theorem childOk_transfer {plen paddr qaddr b : Nat} {t : TrieNode α}
    (hagree : agreeUpTo plen paddr qaddr = true)
    (h : childOk plen paddr b t = true) : childOk plen qaddr b t = true := by
  cases t with
  | nil => exact childOk_nil
  | node i q d sz hh act l r =>
    rw [childOk_node] at h ⊢
    exact underPfx_transfer hagree h

theorem wf_leaf {i : Nat} {key : Prefix} {d0 : Option α} (hkey : validPfx key = true) :
    wf (TrieNode.node i key d0 1 1 true TrieNode.nil TrieNode.nil) = true := by
  rw [wf_node_iff]
  refine ⟨hkey, by norm_num [NumNodes], by norm_num [height], Or.inl rfl,
    childOk_nil, childOk_nil, rfl, rfl⟩

theorem lt_of_bits_agree {plen co paddr qaddr b : Nat} (hple : plen ≤ 128) (hco : co ≤ 128)
    (hagree : agreeUpTo plen paddr qaddr = true)
    (hbp : beBit paddr plen = b) (hbq : beBit qaddr plen = b)
    (hdiff : beBit paddr co ≠ beBit qaddr co) : plen < co := by
  by_contra hle
  push_neg at hle
  rcases Nat.lt_or_ge co plen with hlt | hge
  · exact hdiff (agreeUpTo_beBit hple hagree hlt)
  · have : co = plen := by omega
    subst this
    rw [hbp, hbq] at hdiff
    exact hdiff rfl

theorem copyMutate_eq [DecidableEq α] {t newNode : TrieNode α} {f : TrieNode α → TrieNode α}
    {ctr cOut : Nat} (hnil : t.isNil = false)
    (hcm : copyMutate t f ctr = (newNode, cOut)) :
    newNode = t ∨ newNode = mutate (setId t ctr) f := by
  cases t with
  | nil => simp [isNil] at hnil
  | node i p d sz hh act l r =>
    have hstep : copyMutate (TrieNode.node i p d sz hh act l r) f ctr =
        (if shallowEq (mutate (setId (TrieNode.node i p d sz hh act l r) ctr) f)
            (TrieNode.node i p d sz hh act l r) = true
         then (TrieNode.node i p d sz hh act l r, ctr + 1)
         else (mutate (setId (TrieNode.node i p d sz hh act l r) ctr) f, ctr + 1)) := rfl
    rw [hstep] at hcm
    by_cases hsh : shallowEq (mutate (setId (TrieNode.node i p d sz hh act l r) ctr) f)
        (TrieNode.node i p d sz hh act l r) = true
    · rw [if_pos hsh] at hcm
      injection hcm with hx hy
      exact Or.inl hx.symm
    · rw [if_neg hsh] at hcm
      injection hcm with hx hy
      exact Or.inr hx.symm

theorem copyMutate_setChild0 [DecidableEq α] {i : Nat} {p : Prefix} {d : Option α}
    {sz hh : Nat} {act : Bool} {l r x newNode : TrieNode α} {ctr cOut : Nat}
    (hcm : copyMutate (TrieNode.node i p d sz hh act l r) (fun n => setChild n 0 x) ctr
      = (newNode, cOut)) :
    newNode = TrieNode.node i p d sz hh act l r ∨
    newNode = TrieNode.node ctr p d
        (((x.NumNodes + r.NumNodes) % 2 ^ 32 + if act then 1 else 0) % 2 ^ 32)
        ((1 + max x.height r.height) % 2 ^ 16) act x r := by
  have hred : mutate (setId (TrieNode.node i p d sz hh act l r) ctr) (fun n => setChild n 0 x) =
      TrieNode.node ctr p d
        (((x.NumNodes + r.NumNodes) % 2 ^ 32 + if act then 1 else 0) % 2 ^ 32)
        ((1 + max x.height r.height) % 2 ^ 16) act x r := rfl
  have := copyMutate_eq (by simp [isNil]) hcm
  rw [hred] at this
  exact this

theorem copyMutate_setChild1 [DecidableEq α] {i : Nat} {p : Prefix} {d : Option α}
    {sz hh : Nat} {act : Bool} {l r x newNode : TrieNode α} {ctr cOut : Nat}
    (hcm : copyMutate (TrieNode.node i p d sz hh act l r) (fun n => setChild n 1 x) ctr
      = (newNode, cOut)) :
    newNode = TrieNode.node i p d sz hh act l r ∨
    newNode = TrieNode.node ctr p d
        (((l.NumNodes + x.NumNodes) % 2 ^ 32 + if act then 1 else 0) % 2 ^ 32)
        ((1 + max l.height x.height) % 2 ^ 16) act l x := by
  have hred : mutate (setId (TrieNode.node i p d sz hh act l r) ctr) (fun n => setChild n 1 x) =
      TrieNode.node ctr p d
        (((l.NumNodes + x.NumNodes) % 2 ^ 32 + if act then 1 else 0) % 2 ^ 32)
        ((1 + max l.height x.height) % 2 ^ 16) act l x := rfl
  have := copyMutate_eq (by simp [isNil]) hcm
  rw [hred] at this
  exact this

/-- Main preservation lemma for insert: starting from a well-formed trie and a
representable key, the head returned by insert is well formed; when no error
is reported the head is non-nil; on error the head is the unchanged receiver;
and the head still fits as a child wherever the receiver and the key both fit. -/
theorem insert_good [DecidableEq α] (me : TrieNode α) (key : Prefix) (d0 : Option α)
    (i0 : Nat) (opts : InsertOpts α) (ctr : Nat) {rhead rins : TrieNode α}
    {rerr : Option GoErr} {ctr2 : Nat}
    (hres : insert me (.node i0 key d0 0 0 false .nil .nil) opts ctr = (⟨rhead, rerr, rins⟩, ctr2))
    (hwf : wf me = true) (hkey : validPfx key = true) :
    wf rhead = true ∧ (rerr = none → rhead.isNil = false) ∧
    (rerr ≠ none → rhead = me) ∧
    (∀ plen paddr b, underPfx plen paddr b key = true →
      childOk plen paddr b me = true → childOk plen paddr b rhead = true) := by
  induction me generalizing i0 ctr rhead rerr rins ctr2 with
  | nil =>
    simp only [insert] at hres
    by_cases hins : opts.insert
    · simp only [hins, Bool.not_true, Bool.false_eq_true, if_false] at hres
      injection hres with ha1 ha2
      injection ha1 with hhd her hin
      subst her
      have hlit : rhead = TrieNode.node i0 key d0 1 1 true TrieNode.nil TrieNode.nil :=
        hhd.symm.trans rfl
      subst hlit
      refine ⟨wf_leaf hkey, fun _ => rfl, fun hcontra => absurd rfl hcontra, ?_⟩
      intro plen paddr b hu _
      rw [childOk_node]
      exact hu
    · rw [Bool.not_eq_true] at hins
      simp only [hins, Bool.not_false, if_true] at hres
      injection hres with ha1 ha2
      injection ha1 with hhd her hin
      subst her
      have hlit : rhead = TrieNode.nil := hhd.symm
      subst hlit
      exact ⟨rfl, fun hcontra => by simp at hcontra, fun _ => rfl, fun plen paddr b _ h => h⟩
  | node i p d sz hh act l r ihl ihr =>
    obtain ⟨hv, hsz, hhh, hact, hc0, hc1, hwl, hwr⟩ := wf_node_iff.mp hwf
    have hplen : p.length ≤ 128 := (validPfx_iff.mp hv).1
    have hpaddr : p.addr < 2 ^ 128 := (validPfx_iff.mp hv).2
    have hklen : key.length ≤ 128 := (validPfx_iff.mp hkey).1
    have hkaddr : key.addr < 2 ^ 128 := (validPfx_iff.mp hkey).2
    simp only [insert, pfxOf] at hres
    rcases hcmp : compare p key with ⟨cres, rev, common, child⟩
    simp only [hcmp] at hres
    cases cres with
    | compareSame =>
      obtain ⟨hlen, hagree, hrev⟩ := compare_same_spec hcmp
      by_cases h1 : (act && !opts.update) = true
      · simp only [h1, if_true] at hres
        injection hres with ha1 ha2
        injection ha1 with hhd her hin
        subst her
        have hlit : rhead = TrieNode.node i p d sz hh act l r := hhd.symm
        subst hlit
        exact ⟨hwf, fun hcontra => by simp at hcontra, fun _ => rfl, fun plen paddr b _ h => h⟩
      · rw [Bool.not_eq_true] at h1
        simp only [h1, Bool.false_eq_true, if_false] at hres
        by_cases h2 : (!act && !opts.insert) = true
        · simp only [h2, if_true] at hres
          injection hres with ha1 ha2
          injection ha1 with hhd her hin
          subst her
          have hlit : rhead = TrieNode.node i p d sz hh act l r := hhd.symm
          subst hlit
          exact ⟨hwf, fun hcontra => by simp at hcontra, fun _ => rfl, fun plen paddr b _ h => h⟩
        · rw [Bool.not_eq_true] at h2
          simp only [h2, Bool.false_eq_true, if_false] at hres
          injection hres with ha1 ha2
          injection ha1 with hhd her hin
          subst her
          have hlit : rhead = TrieNode.node i0 key (if act && opts.eq d d0 then d else d0)
              (((l.NumNodes + r.NumNodes) % 2 ^ 32 + 1) % 2 ^ 32)
              ((1 + max l.height r.height) % 2 ^ 16) true l r := hhd.symm.trans rfl
          subst hlit
          refine ⟨?_, fun _ => rfl, fun hcontra => absurd rfl hcontra, ?_⟩
          · rw [wf_node_iff]
            refine ⟨hkey, rfl, rfl, Or.inl rfl, ?_, ?_, hwl, hwr⟩
            · rw [← hlen]
              exact childOk_transfer hagree hc0
            · rw [← hlen]
              exact childOk_transfer hagree hc1
          · intro plen paddr b hu _
            rw [childOk_node]
            exact hu
    | compareContains =>
      obtain ⟨hlt, hcommon, hagree, hchild, hrev⟩ := compare_contains_spec hklen hcmp
      have hunder : underPfx p.length p.addr child key = true := by
        rw [underPfx_iff]
        exact ⟨hlt, hagree, hchild.symm⟩
      rcases hchv : (child == 0) with _ | _
      · -- child is 1: recurse into the right subtree
        have hch1 : child = 1 := by
          have hne : child ≠ 0 := by
            intro hcontra
            rw [hcontra] at hchv
            simp at hchv
          rcases beBit_lt_two key.addr p.length with hb | hb <;> rw [← hchild] at hb <;> omega
        rw [hchv] at hres
        simp only [Bool.false_eq_true, if_false] at hres
        rcases hrec : insert r (.node i0 key d0 0 0 false .nil .nil) opts ctr
          with ⟨⟨r1h, r1e, r1i⟩, c1⟩
        simp only [hrec] at hres
        obtain ⟨ih1, ih2, ih3, ih4⟩ := ihr i0 ctr hrec hwr
        rcases r1e with _ | e
        · rcases hcm : copyMutate (TrieNode.node i p d sz hh act l r)
              (fun n => setChild n child r1h) c1 with ⟨newNode, c2⟩
          simp only [hcm] at hres
          injection hres with ha1 ha2
          injection ha1 with hhd her hin
          subst her
          subst hhd
          rw [hch1] at hcm
          have hchr : childOk p.length p.addr 1 r1h = true := by
            apply ih4 p.length p.addr 1
            · rw [hch1] at hunder
              exact hunder
            · exact hc1
          rcases copyMutate_setChild1 hcm with hnew | hnew
          · subst hnew
            exact ⟨hwf, fun _ => rfl, fun hcontra => absurd rfl hcontra,
              fun plen paddr b _ h => h⟩
          · subst hnew
            refine ⟨?_, fun _ => rfl, fun hcontra => absurd rfl hcontra, ?_⟩
            · rw [wf_node_iff]
              refine ⟨hv, rfl, rfl, ?_, hc0, hchr, hwl, ih1⟩
              rcases hact with hacttrue | ⟨hln, hrn⟩
              · exact Or.inl hacttrue
              · exact Or.inr ⟨hln, ih2 rfl⟩
            · intro plen paddr b hu hok
              rw [childOk_node] at hok ⊢
              exact hok
        · injection hres with ha1 ha2
          injection ha1 with hhd her hin
          subst her
          have hlit : rhead = TrieNode.node i p d sz hh act l r := hhd.symm
          subst hlit
          exact ⟨hwf, fun hcontra => by simp at hcontra, fun _ => rfl, fun plen paddr b _ h => h⟩
      · -- child is 0: recurse into the left subtree
        have hch0 : child = 0 := eq_of_beq hchv
        rw [hchv] at hres
        simp only [if_true] at hres
        rcases hrec : insert l (.node i0 key d0 0 0 false .nil .nil) opts ctr
          with ⟨⟨r1h, r1e, r1i⟩, c1⟩
        simp only [hrec] at hres
        obtain ⟨ih1, ih2, ih3, ih4⟩ := ihl i0 ctr hrec hwl
        rcases r1e with _ | e
        · rcases hcm : copyMutate (TrieNode.node i p d sz hh act l r)
              (fun n => setChild n child r1h) c1 with ⟨newNode, c2⟩
          simp only [hcm] at hres
          injection hres with ha1 ha2
          injection ha1 with hhd her hin
          subst her
          subst hhd
          rw [hch0] at hcm
          have hchr : childOk p.length p.addr 0 r1h = true := by
            apply ih4 p.length p.addr 0
            · rw [hch0] at hunder
              exact hunder
            · exact hc0
          rcases copyMutate_setChild0 hcm with hnew | hnew
          · subst hnew
            exact ⟨hwf, fun _ => rfl, fun hcontra => absurd rfl hcontra,
              fun plen paddr b _ h => h⟩
          · subst hnew
            refine ⟨?_, fun _ => rfl, fun hcontra => absurd rfl hcontra, ?_⟩
            · rw [wf_node_iff]
              refine ⟨hv, rfl, rfl, ?_, hchr, hc1, ih1, hwr⟩
              rcases hact with hacttrue | ⟨hln, hrn⟩
              · exact Or.inl hacttrue
              · exact Or.inr ⟨ih2 rfl, hrn⟩
            · intro plen paddr b hu hok
              rw [childOk_node] at hok ⊢
              exact hok
        · injection hres with ha1 ha2
          injection ha1 with hhd her hin
          subst her
          have hlit : rhead = TrieNode.node i p d sz hh act l r := hhd.symm
          subst hlit
          exact ⟨hwf, fun hcontra => by simp at hcontra, fun _ => rfl, fun plen paddr b _ h => h⟩
    | compareIsContained =>
      obtain ⟨hlt, hcommon, hagree, hchild, hrev⟩ := compare_isContained_spec hplen hcmp
      by_cases hins : opts.insert
      · simp only [hins, Bool.not_true, Bool.false_eq_true, if_false] at hres
        have hme : underPfx key.length key.addr child p = true := by
          rw [underPfx_iff]
          exact ⟨hlt, agreeUpTo_symm hagree, hchild.symm⟩
        rcases hchv : (child == 0) with _ | _
        · have hch1 : child = 1 := by
            have hne : child ≠ 0 := by
              intro hcontra
              rw [hcontra] at hchv
              simp at hchv
            rcases beBit_lt_two p.addr key.length with hb | hb <;> rw [← hchild] at hb <;> omega
          rw [hch1] at hres hme
          injection hres with ha1 ha2
          injection ha1 with hhd her hin
          subst her
          have hlit : rhead = TrieNode.node i0 key d0
              (((0 + sz) % 2 ^ 32 + 1) % 2 ^ 32) ((1 + max 0 hh) % 2 ^ 16) true
              TrieNode.nil (TrieNode.node i p d sz hh act l r) := hhd.symm.trans rfl
          subst hlit
          refine ⟨?_, fun _ => rfl, fun hcontra => absurd rfl hcontra, ?_⟩
          · rw [wf_node_iff]
            refine ⟨hkey, rfl, rfl, Or.inl rfl, childOk_nil, ?_, rfl, hwf⟩
            rw [childOk_node]
            exact hme
          · intro plen paddr b hu _
            rw [childOk_node]
            exact hu
        · have hch0 : child = 0 := eq_of_beq hchv
          rw [hch0] at hres hme
          injection hres with ha1 ha2
          injection ha1 with hhd her hin
          subst her
          have hlit : rhead = TrieNode.node i0 key d0
              (((sz + 0) % 2 ^ 32 + 1) % 2 ^ 32) ((1 + max hh 0) % 2 ^ 16) true
              (TrieNode.node i p d sz hh act l r) TrieNode.nil := hhd.symm.trans rfl
          subst hlit
          refine ⟨?_, fun _ => rfl, fun hcontra => absurd rfl hcontra, ?_⟩
          · rw [wf_node_iff]
            refine ⟨hkey, rfl, rfl, Or.inl rfl, ?_, childOk_nil, hwf, rfl⟩
            rw [childOk_node]
            exact hme
          · intro plen paddr b hu _
            rw [childOk_node]
            exact hu
      · rw [Bool.not_eq_true] at hins
        simp only [hins, Bool.not_false, if_true] at hres
        injection hres with ha1 ha2
        injection ha1 with hhd her hin
        subst her
        have hlit : rhead = TrieNode.node i p d sz hh act l r := hhd.symm
        subst hlit
        exact ⟨hwf, fun hcontra => by simp at hcontra, fun _ => rfl, fun plen paddr b _ h => h⟩
    | compareDisjoint =>
      obtain ⟨hc127, hclt1, hclt2, hagree, harr1, harr0⟩ := compare_disjoint_spec hv hkey hcmp
      by_cases hins : opts.insert
      · simp only [hins, Bool.not_true, Bool.false_eq_true, if_false] at hres
        have hjeq : ucomplement (rightShift mask128 common) = topMask common :=
          ucomplement_rightShift_mask128 (by omega)
        have hjagree : agreeUpTo common
            (uand p.addr (ucomplement (rightShift mask128 common))) p.addr = true := by
          rw [hjeq]
          exact agreeUpTo_uand_topMask (by omega) hpaddr
        have hjlt : uand p.addr (ucomplement (rightShift mask128 common)) < 2 ^ 128 :=
          uand_lt_two_pow _ hpaddr
        have hjvalid : validPfx
            ⟨uand p.addr (ucomplement (rightShift mask128 common)), common⟩ = true := by
          rw [validPfx_iff]
          refine ⟨?_, ?_⟩
          · show common ≤ 128
            omega
          · show uand p.addr (ucomplement (rightShift mask128 common)) < 2 ^ 128
            exact hjlt
        have hagree_key : agreeUpTo common
            (uand p.addr (ucomplement (rightShift mask128 common))) key.addr = true :=
          agreeUpTo_trans hjagree hagree
        have hleafwf : wf (TrieNode.node i0 key d0 1 1 true TrieNode.nil TrieNode.nil) = true :=
          wf_leaf hkey
        have hundergen : ∀ plen paddr b, underPfx plen paddr b key = true →
            underPfx plen paddr b p = true →
            underPfx plen paddr b
              ⟨uand p.addr (ucomplement (rightShift mask128 common)), common⟩ = true := by
          intro plen paddr b hu hok
          rw [underPfx_iff] at hu hok ⊢
          obtain ⟨hu1, hu2, hu3⟩ := hu
          obtain ⟨ho1, ho2, ho3⟩ := hok
          have hagreepk : agreeUpTo plen p.addr key.addr = true :=
            agreeUpTo_trans (agreeUpTo_symm ho2) hu2
          have hdiffc : beBit p.addr common ≠ beBit key.addr common := by
            rcases hcond2 : ((child == 1) != rev) with _ | _
            · obtain ⟨hx, hy⟩ := harr0 hcond2
              rw [hx, hy]
              omega
            · obtain ⟨hx, hy⟩ := harr1 hcond2
              rw [hx, hy]
              omega
          have hplc : plen < common :=
            lt_of_bits_agree (by omega) (by omega) hagreepk ho3 hu3 hdiffc
          refine ⟨by simpa using hplc, ?_, ?_⟩
          · apply agreeUpTo_trans ho2
            apply agreeUpTo_symm
            exact agreeUpTo_mono hjlt hpaddr (by omega) (by omega) hjagree
          · show beBit (uand p.addr (ucomplement (rightShift mask128 common))) plen = b
            rw [agreeUpTo_beBit (by omega) hjagree hplc]
            exact ho3
        rcases hcond : ((child == 1) != rev) with _ | _
        · obtain ⟨hbp, hbk⟩ := harr0 hcond
          rw [hcond] at hres
          simp only [Bool.false_eq_true, if_false] at hres
          injection hres with ha1 ha2
          injection ha1 with hhd her hin
          subst her
          have hlit : rhead = TrieNode.node ctr
              ⟨uand p.addr (ucomplement (rightShift mask128 common)), common⟩ none
              (((1 + sz) % 2 ^ 32 + 0) % 2 ^ 32) ((1 + max 1 hh) % 2 ^ 16) false
              (TrieNode.node i0 key d0 1 1 true TrieNode.nil TrieNode.nil)
              (TrieNode.node i p d sz hh act l r) := hhd.symm.trans rfl
          subst hlit
          refine ⟨?_, fun _ => rfl, fun hcontra => absurd rfl hcontra, ?_⟩
          · rw [wf_node_iff]
            refine ⟨hjvalid, rfl, rfl, Or.inr ⟨rfl, rfl⟩, ?_, ?_, hleafwf, hwf⟩
            · rw [childOk_node, underPfx_iff]
              exact ⟨hclt2, hagree_key, hbk⟩
            · rw [childOk_node, underPfx_iff]
              exact ⟨hclt1, hjagree, hbp⟩
          · intro plen paddr b hu hok
            rw [childOk_node] at hok ⊢
            exact hundergen plen paddr b hu hok
        · obtain ⟨hbp, hbk⟩ := harr1 hcond
          rw [hcond] at hres
          simp only [if_true] at hres
          injection hres with ha1 ha2
          injection ha1 with hhd her hin
          subst her
          have hlit : rhead = TrieNode.node ctr
              ⟨uand p.addr (ucomplement (rightShift mask128 common)), common⟩ none
              (((sz + 1) % 2 ^ 32 + 0) % 2 ^ 32) ((1 + max hh 1) % 2 ^ 16) false
              (TrieNode.node i p d sz hh act l r)
              (TrieNode.node i0 key d0 1 1 true TrieNode.nil TrieNode.nil) := hhd.symm.trans rfl
          subst hlit
          refine ⟨?_, fun _ => rfl, fun hcontra => absurd rfl hcontra, ?_⟩
          · rw [wf_node_iff]
            refine ⟨hjvalid, rfl, rfl, Or.inr ⟨rfl, rfl⟩, ?_, ?_, hwf, hleafwf⟩
            · rw [childOk_node, underPfx_iff]
              exact ⟨hclt1, hjagree, hbp⟩
            · rw [childOk_node, underPfx_iff]
              exact ⟨hclt2, hagree_key, hbk⟩
          · intro plen paddr b hu hok
            rw [childOk_node] at hok ⊢
            exact hundergen plen paddr b hu hok
      · rw [Bool.not_eq_true] at hins
        simp only [hins, Bool.not_false, if_true] at hres
        injection hres with ha1 ha2
        injection ha1 with hhd her hin
        subst her
        have hlit : rhead = TrieNode.node i p d sz hh act l r := hhd.symm
        subst hlit
        exact ⟨hwf, fun hcontra => by simp at hcontra, fun _ => rfl, fun plen paddr b _ h => h⟩

theorem contains_child01 {s l : Prefix} {m e : Bool} {c0 ch0 : Nat}
    (h : contains s l = (m, e, c0, ch0)) : ch0 = 0 ∨ ch0 = 1 := by
  obtain ⟨h1, h2, h3, h4⟩ := contains_components h
  rw [h4]
  split
  · exact Or.inl rfl
  · split
    · exact Or.inr rfl
    · exact Or.inl rfl

theorem compare_child01 {a b : Prefix} {res : Cmp} {rev : Bool} {co ch : Nat}
    (h : compare a b = (res, rev, co, ch)) : ch = 0 ∨ ch = 1 := by
  unfold compare at h
  by_cases hrev : b.length < a.length
  · simp only [hrev, decide_True] at h
    rcases hc : contains b a with ⟨m, e, c0, ch0⟩
    rw [hc] at h
    simp only [Prod.mk.injEq] at h
    rw [← h.2.2.2]
    exact contains_child01 hc
  · simp only [hrev, decide_False] at h
    rcases hc : contains a b with ⟨m, e, c0, ch0⟩
    rw [hc] at h
    simp only [Prod.mk.injEq] at h
    rw [← h.2.2.2]
    exact contains_child01 hc

theorem underPfx_descend {plen paddr b bb : Nat} {p q : Prefix}
    (hplen : p.length ≤ 128) (hpaddr : p.addr < 2 ^ 128) (hqaddr : q.addr < 2 ^ 128)
    (hU : underPfx plen paddr b p = true) (hq : underPfx p.length p.addr bb q = true) :
    underPfx plen paddr b q = true := by
  rw [underPfx_iff] at hU hq ⊢
  obtain ⟨hU1, hU2, hU3⟩ := hU
  obtain ⟨hq1, hq2, hq3⟩ := hq
  refine ⟨by omega, ?_, ?_⟩
  · exact agreeUpTo_trans hU2 (agreeUpTo_mono hpaddr hqaddr (by omega) hplen hq2)
  · rw [← agreeUpTo_beBit hplen hq2 hU1]
    exact hU3

theorem childOk_descend {plen paddr b bb : Nat} {p : Prefix} {t : TrieNode α}
    (hplen : p.length ≤ 128) (hpaddr : p.addr < 2 ^ 128) (hwft : wf t = true)
    (hU : underPfx plen paddr b p = true)
    (hq : childOk p.length p.addr bb t = true) :
    childOk plen paddr b t = true := by
  cases t with
  | nil => exact childOk_nil
  | node i q dd szz hhz actt ll rr =>
    rw [childOk_node] at hq ⊢
    have hqv : validPfx q = true := (wf_node_iff.mp hwft).1
    exact underPfx_descend hplen hpaddr (validPfx_iff.mp hqv).2 hU hq

theorem copyMutate_deactivate [DecidableEq α] {i : Nat} {p : Prefix} {d : Option α}
    {sz hh : Nat} {act : Bool} {l r newNode : TrieNode α} {ctr cOut : Nat}
    (hcm : copyMutate (TrieNode.node i p d sz hh act l r)
      (fun n => withData (setActive n false) none) ctr = (newNode, cOut)) :
    newNode = TrieNode.node i p d sz hh act l r ∨
    newNode = TrieNode.node ctr p none (((l.NumNodes + r.NumNodes) % 2 ^ 32 + 0) % 2 ^ 32)
      ((1 + max l.height r.height) % 2 ^ 16) false l r := by
  have hred : mutate (setId (TrieNode.node i p d sz hh act l r) ctr)
      (fun n => withData (setActive n false) none) =
      TrieNode.node ctr p none (((l.NumNodes + r.NumNodes) % 2 ^ 32 + 0) % 2 ^ 32)
        ((1 + max l.height r.height) % 2 ^ 16) false l r := rfl
  have hc := copyMutate_eq (by simp [isNil]) hcm
  rw [hred] at hc
  exact hc

/-- Main preservation lemma for del: starting from a well-formed trie, the head
returned by del is well formed; on error the head is the unchanged receiver;
and the head still fits as a child wherever the receiver fits. -/
theorem del_good [DecidableEq α] (me : TrieNode α) (key : Prefix) (opts : DeleteOpts)
    (ctr : Nat) {rhead : TrieNode α} {rerr : Option GoErr} {ctr2 : Nat}
    (hres : del me key opts ctr = ((rhead, rerr), ctr2)) (hwf : wf me = true) :
    wf rhead = true ∧ (rerr ≠ none → rhead = me) ∧
    (∀ plen paddr b, childOk plen paddr b me = true → childOk plen paddr b rhead = true) := by
  induction me generalizing ctr rhead rerr ctr2 with
  | nil =>
    simp only [del] at hres
    by_cases hfl : opts.flatten
    · simp only [hfl, if_true] at hres
      injection hres with ha1 ha2
      injection ha1 with hhd her
      subst her
      have hlit : rhead = TrieNode.nil := hhd.symm
      subst hlit
      exact ⟨rfl, fun _ => rfl, fun plen paddr b _ => childOk_nil⟩
    · rw [Bool.not_eq_true] at hfl
      simp only [hfl, Bool.false_eq_true, if_false] at hres
      injection hres with ha1 ha2
      injection ha1 with hhd her
      subst her
      have hlit : rhead = TrieNode.nil := hhd.symm
      subst hlit
      exact ⟨rfl, fun _ => rfl, fun plen paddr b _ => childOk_nil⟩
  | node i p d sz hh act l r ihl ihr =>
    obtain ⟨hv, hsz, hhh, hact, hc0, hc1, hwl, hwr⟩ := wf_node_iff.mp hwf
    have hplen : p.length ≤ 128 := (validPfx_iff.mp hv).1
    have hpaddr : p.addr < 2 ^ 128 := (validPfx_iff.mp hv).2
    simp only [del] at hres
    rcases hcmp : compare p key with ⟨cres, rev, common, child⟩
    simp only [hcmp] at hres
    have hch01 := compare_child01 hcmp
    cases cres with
    | compareSame =>
      by_cases hfl : opts.flatten
      · simp only [hfl, if_true] at hres
        injection hres with ha1 ha2
        injection ha1 with hhd her
        subst her
        have hlit : rhead = TrieNode.nil := hhd.symm
        subst hlit
        exact ⟨rfl, fun hcontra => absurd rfl hcontra, fun plen paddr b _ => childOk_nil⟩
      · rw [Bool.not_eq_true] at hfl
        simp only [hfl, Bool.false_eq_true, if_false] at hres
        rcases hlnil : l.isNil with _ | _
        · rw [hlnil] at hres
          simp only [Bool.false_eq_true, if_false] at hres
          rcases hrnil : r.isNil with _ | _
          · rw [hrnil] at hres
            simp only [Bool.false_eq_true, if_false] at hres
            rcases hcm : copyMutate (TrieNode.node i p d sz hh act l r)
                (fun n => withData (setActive n false) none) ctr with ⟨newNode, c2⟩
            simp only [hcm] at hres
            injection hres with ha1 ha2
            injection ha1 with hhd her
            subst her
            subst hhd
            rcases copyMutate_deactivate hcm with hnew | hnew
            · subst hnew
              exact ⟨hwf, fun hcontra => absurd rfl hcontra, fun plen paddr b h => h⟩
            · subst hnew
              refine ⟨?_, fun hcontra => absurd rfl hcontra, ?_⟩
              · rw [wf_node_iff]
                exact ⟨hv, rfl, rfl, Or.inr ⟨hlnil, hrnil⟩, hc0, hc1, hwl, hwr⟩
              · intro plen paddr b hok
                rw [childOk_node] at hok ⊢
                exact hok
          · rw [hrnil] at hres
            simp only [if_true] at hres
            injection hres with ha1 ha2
            injection ha1 with hhd her
            subst her
            have hlit : rhead = l := hhd.symm
            subst hlit
            refine ⟨hwl, fun hcontra => absurd rfl hcontra, ?_⟩
            intro plen paddr b hok
            rw [childOk_node] at hok
            exact childOk_descend hplen hpaddr hwl hok hc0
        · rw [hlnil] at hres
          simp only [if_true] at hres
          injection hres with ha1 ha2
          injection ha1 with hhd her
          subst her
          have hlit : rhead = r := hhd.symm
          subst hlit
          refine ⟨hwr, fun hcontra => absurd rfl hcontra, ?_⟩
          intro plen paddr b hok
          rw [childOk_node] at hok
          exact childOk_descend hplen hpaddr hwr hok hc1
    | compareContains =>
      rcases hchv : (child == 0) with _ | _
      · have hch1 : child = 1 := by
          rcases hch01 with h0 | h1
          · rw [h0] at hchv
            simp at hchv
          · exact h1
        rw [hchv] at hres
        simp only [Bool.false_eq_true, if_false] at hres
        rcases hrec : del r key opts ctr with ⟨⟨r1h, r1e⟩, c1⟩
        simp only [hrec] at hres
        obtain ⟨ih1, ih2, ih3⟩ := ihr ctr hrec hwr
        rcases r1e with _ | e
        · rcases hpr : (r1h.isNil && !act) with _ | _
          · rw [hpr] at hres
            simp only [Bool.false_eq_true, if_false] at hres
            rcases hcm : copyMutate (TrieNode.node i p d sz hh act l r)
                (fun n => setChild n child r1h) c1 with ⟨newNode, c2⟩
            simp only [hcm] at hres
            injection hres with ha1 ha2
            injection ha1 with hhd her
            subst her
            subst hhd
            rw [hch1] at hcm
            have hchr : childOk p.length p.addr 1 r1h = true := ih3 p.length p.addr 1 hc1
            rcases copyMutate_setChild1 hcm with hnew | hnew
            · subst hnew
              exact ⟨hwf, fun hcontra => absurd rfl hcontra, fun plen paddr b h => h⟩
            · subst hnew
              refine ⟨?_, fun hcontra => absurd rfl hcontra, ?_⟩
              · rw [wf_node_iff]
                refine ⟨hv, rfl, rfl, ?_, hc0, hchr, hwl, ih1⟩
                cases hq2 : act
                · refine Or.inr ⟨?_, ?_⟩
                  · rcases hact with h | ⟨h1, h2⟩
                    · simp [h] at hq2
                    · exact h1
                  · cases hq : r1h.isNil
                    · rfl
                    · rw [hq2, hq] at hpr
                      simp at hpr
                · exact Or.inl rfl
              · intro plen paddr b hok
                rw [childOk_node] at hok ⊢
                exact hok
          · rw [hpr] at hres
            simp only [if_true] at hres
            rw [hch1] at hres
            have hrc : ((reverseChild 1 == 0)) = true := rfl
            rw [hrc] at hres
            simp only [if_true] at hres
            injection hres with ha1 ha2
            injection ha1 with hhd her
            subst her
            have hlit : rhead = l := hhd.symm
            subst hlit
            refine ⟨hwl, fun hcontra => absurd rfl hcontra, ?_⟩
            intro plen paddr b hok
            rw [childOk_node] at hok
            exact childOk_descend hplen hpaddr hwl hok hc0
        · injection hres with ha1 ha2
          injection ha1 with hhd her
          subst her
          have hlit : rhead = TrieNode.node i p d sz hh act l r := hhd.symm
          subst hlit
          exact ⟨hwf, fun _ => rfl, fun plen paddr b h => h⟩
      · have hch0 : child = 0 := eq_of_beq hchv
        rw [hchv] at hres
        simp only [if_true] at hres
        rcases hrec : del l key opts ctr with ⟨⟨r1h, r1e⟩, c1⟩
        simp only [hrec] at hres
        obtain ⟨ih1, ih2, ih3⟩ := ihl ctr hrec hwl
        rcases r1e with _ | e
        · rcases hpr : (r1h.isNil && !act) with _ | _
          · rw [hpr] at hres
            simp only [Bool.false_eq_true, if_false] at hres
            rcases hcm : copyMutate (TrieNode.node i p d sz hh act l r)
                (fun n => setChild n child r1h) c1 with ⟨newNode, c2⟩
            simp only [hcm] at hres
            injection hres with ha1 ha2
            injection ha1 with hhd her
            subst her
            subst hhd
            rw [hch0] at hcm
            have hchr : childOk p.length p.addr 0 r1h = true := ih3 p.length p.addr 0 hc0
            rcases copyMutate_setChild0 hcm with hnew | hnew
            · subst hnew
              exact ⟨hwf, fun hcontra => absurd rfl hcontra, fun plen paddr b h => h⟩
            · subst hnew
              refine ⟨?_, fun hcontra => absurd rfl hcontra, ?_⟩
              · rw [wf_node_iff]
                refine ⟨hv, rfl, rfl, ?_, hchr, hc1, ih1, hwr⟩
                cases hq2 : act
                · refine Or.inr ⟨?_, ?_⟩
                  · cases hq : r1h.isNil
                    · rfl
                    · rw [hq2, hq] at hpr
                      simp at hpr
                  · rcases hact with h | ⟨h1, h2⟩
                    · simp [h] at hq2
                    · exact h2
                · exact Or.inl rfl
              · intro plen paddr b hok
                rw [childOk_node] at hok ⊢
                exact hok
          · rw [hpr] at hres
            simp only [if_true] at hres
            rw [hch0] at hres
            have hrc : ((reverseChild 0 == 0)) = false := rfl
            rw [hrc] at hres
            simp only [Bool.false_eq_true, if_false] at hres
            injection hres with ha1 ha2
            injection ha1 with hhd her
            subst her
            have hlit : rhead = r := hhd.symm
            subst hlit
            refine ⟨hwr, fun hcontra => absurd rfl hcontra, ?_⟩
            intro plen paddr b hok
            rw [childOk_node] at hok
            exact childOk_descend hplen hpaddr hwr hok hc1
        · injection hres with ha1 ha2
          injection ha1 with hhd her
          subst her
          have hlit : rhead = TrieNode.node i p d sz hh act l r := hhd.symm
          subst hlit
          exact ⟨hwf, fun _ => rfl, fun plen paddr b h => h⟩
    | compareIsContained =>
      by_cases hfl : opts.flatten
      · simp only [hfl, if_true] at hres
        injection hres with ha1 ha2
        injection ha1 with hhd her
        subst her
        have hlit : rhead = TrieNode.nil := hhd.symm
        subst hlit
        exact ⟨rfl, fun hcontra => absurd rfl hcontra, fun plen paddr b _ => childOk_nil⟩
      · rw [Bool.not_eq_true] at hfl
        simp only [hfl, Bool.false_eq_true, if_false] at hres
        injection hres with ha1 ha2
        injection ha1 with hhd her
        subst her
        have hlit : rhead = TrieNode.node i p d sz hh act l r := hhd.symm
        subst hlit
        exact ⟨hwf, fun _ => rfl, fun plen paddr b h => h⟩
    | compareDisjoint =>
      injection hres with ha1 ha2
      injection ha1 with hhd her
      subst her
      have hlit : rhead = TrieNode.node i p d sz hh act l r := hhd.symm
      subst hlit
      exact ⟨hwf, fun _ => rfl, fun plen paddr b h => h⟩

theorem getOrInsertMiss_nil [DecidableEq α] (key : Prefix) (d0 : Option α) (ctr : Nat) :
    getOrInsertMiss (TrieNode.nil : TrieNode α) key d0 ctr =
      (⟨TrieNode.node ctr key d0 1 1 true TrieNode.nil TrieNode.nil,
        TrieNode.node ctr key d0 1 1 true TrieNode.nil TrieNode.nil, false⟩, ctr + 1) := rfl

/-- Preservation lemma for GetOrInsert: from a well-formed trie and a
representable key, the returned head is well formed, non-nil, and still fits
as a child wherever the receiver and the key both fit. -/
theorem getOrInsert_good [DecidableEq α] (me : TrieNode α) (key : Prefix) (d0 : Option α)
    (ctr : Nat) {ghead gres : TrieNode α} {gpan : Bool} {ctr2 : Nat}
    (hres : GetOrInsert me key d0 ctr = (⟨ghead, gres, gpan⟩, ctr2))
    (hwf : wf me = true) (hkey : validPfx key = true) :
    wf ghead = true ∧ ghead.isNil = false ∧
    (∀ plen paddr b, underPfx plen paddr b key = true →
      childOk plen paddr b me = true → childOk plen paddr b ghead = true) := by
  have hklen : key.length ≤ 128 := (validPfx_iff.mp hkey).1
  induction me generalizing ctr ghead gres gpan ctr2 with
  | nil =>
    simp only [GetOrInsert] at hres
    rw [getOrInsertMiss_nil] at hres
    injection hres with ha1 ha2
    injection ha1 with hhd hrs hpn
    subst hhd
    refine ⟨wf_leaf hkey, rfl, ?_⟩
    intro plen paddr b hu _
    rw [childOk_node]
    exact hu
  | node i p d sz hh act l r ihl ihr =>
    obtain ⟨hv, hsz, hhh, hact, hc0, hc1, hwl, hwr⟩ := wf_node_iff.mp hwf
    have hplen : p.length ≤ 128 := (validPfx_iff.mp hv).1
    simp only [GetOrInsert] at hres
    by_cases hkl : key.length < p.length
    · simp only [hkl, if_true] at hres
      simp only [getOrInsertMiss] at hres
      rcases hins2 : insert (TrieNode.node i p d sz hh act l r)
          (TrieNode.node ctr key d0 0 0 false TrieNode.nil TrieNode.nil)
          ⟨true, false, fun _ _ => false⟩ (ctr + 1) with ⟨⟨insh, inse, insi⟩, c1⟩
      simp only [hins2] at hres
      injection hres with ha1 ha2
      injection ha1 with hhd hrs hpn
      subst hhd
      obtain ⟨g1, g2, g3, g4⟩ := insert_good _ key d0 ctr _ (ctr + 1) hins2 hwf hkey
      refine ⟨g1, ?_, fun plen paddr b hu hok => g4 plen paddr b hu hok⟩
      rcases inse with _ | e
      · exact g2 rfl
      · rw [g3 (by simp)]
        rfl
    · simp only [hkl, if_false] at hres
      rcases hcon : contains p key with ⟨mtch, exact0, c0, child⟩
      simp only [hcon] at hres
      cases mtch
      · simp only [Bool.not_false, if_true] at hres
        simp only [getOrInsertMiss] at hres
        rcases hins2 : insert (TrieNode.node i p d sz hh act l r)
            (TrieNode.node ctr key d0 0 0 false TrieNode.nil TrieNode.nil)
            ⟨true, false, fun _ _ => false⟩ (ctr + 1) with ⟨⟨insh, inse, insi⟩, c1⟩
        simp only [hins2] at hres
        injection hres with ha1 ha2
        injection ha1 with hhd hrs hpn
        subst hhd
        obtain ⟨g1, g2, g3, g4⟩ := insert_good _ key d0 ctr _ (ctr + 1) hins2 hwf hkey
        refine ⟨g1, ?_, fun plen paddr b hu hok => g4 plen paddr b hu hok⟩
        rcases inse with _ | e
        · exact g2 rfl
        · rw [g3 (by simp)]
          rfl
      · cases exact0
        · -- matched but not exact: descend into the indicated child
          simp only [Bool.not_true, Bool.not_false, Bool.false_eq_true, if_false, if_true] at hres
          obtain ⟨hlt, hagree, hc00, hchild⟩ :=
            contains_strict_spec (by omega) hklen hcon rfl rfl
          have hunder : underPfx p.length p.addr child key = true := by
            rw [underPfx_iff]
            exact ⟨hlt, hagree, hchild.symm⟩
          rcases hchv : (child == 0) with _ | _
          · have hch1 : child = 1 := by
              have hne : child ≠ 0 := by
                intro hcontra
                rw [hcontra] at hchv
                simp at hchv
              rcases beBit_lt_two key.addr p.length with hb | hb <;> rw [← hchild] at hb <;> omega
            rw [hchv] at hres
            simp only [Bool.false_eq_true, if_false] at hres
            rcases hrec : GetOrInsert r key d0 ctr with ⟨⟨r1h, r1r, r1p⟩, c1⟩
            simp only [hrec] at hres
            obtain ⟨ih1, ih2, ih3⟩ := ihr ctr hrec hwr
            rcases hcm : copyMutate (TrieNode.node i p d sz hh act l r)
                (fun n => setChild n child r1h) c1 with ⟨newNode, c2⟩
            simp only [hcm] at hres
            injection hres with ha1 ha2
            injection ha1 with hhd hrs hpn
            subst hhd
            rw [hch1] at hcm
            have hchr : childOk p.length p.addr 1 r1h = true := by
              apply ih3 p.length p.addr 1
              · rw [hch1] at hunder
                exact hunder
              · exact hc1
            rcases copyMutate_setChild1 hcm with hnew | hnew
            · subst hnew
              exact ⟨hwf, rfl, fun plen paddr b _ h => h⟩
            · subst hnew
              refine ⟨?_, rfl, ?_⟩
              · rw [wf_node_iff]
                refine ⟨hv, rfl, rfl, ?_, hc0, hchr, hwl, ih1⟩
                rcases hact with hacttrue | ⟨hln, hrn⟩
                · exact Or.inl hacttrue
                · exact Or.inr ⟨hln, ih2⟩
              · intro plen paddr b hu hok
                rw [childOk_node] at hok ⊢
                exact hok
          · have hch0 : child = 0 := eq_of_beq hchv
            rw [hchv] at hres
            simp only [if_true] at hres
            rcases hrec : GetOrInsert l key d0 ctr with ⟨⟨r1h, r1r, r1p⟩, c1⟩
            simp only [hrec] at hres
            obtain ⟨ih1, ih2, ih3⟩ := ihl ctr hrec hwl
            rcases hcm : copyMutate (TrieNode.node i p d sz hh act l r)
                (fun n => setChild n child r1h) c1 with ⟨newNode, c2⟩
            simp only [hcm] at hres
            injection hres with ha1 ha2
            injection ha1 with hhd hrs hpn
            subst hhd
            rw [hch0] at hcm
            have hchr : childOk p.length p.addr 0 r1h = true := by
              apply ih3 p.length p.addr 0
              · rw [hch0] at hunder
                exact hunder
              · exact hc0
            rcases copyMutate_setChild0 hcm with hnew | hnew
            · subst hnew
              exact ⟨hwf, rfl, fun plen paddr b _ h => h⟩
            · subst hnew
              refine ⟨?_, rfl, ?_⟩
              · rw [wf_node_iff]
                refine ⟨hv, rfl, rfl, ?_, hchr, hc1, ih1, hwr⟩
                rcases hact with hacttrue | ⟨hln, hrn⟩
                · exact Or.inl hacttrue
                · exact Or.inr ⟨ih2, hrn⟩
              · intro plen paddr b hu hok
                rw [childOk_node] at hok ⊢
                exact hok
        · -- exact match
          simp only [Bool.not_true, Bool.false_eq_true, if_false] at hres
          cases act
          · simp only [Bool.not_false, if_true] at hres
            simp only [getOrInsertMiss] at hres
            rcases hins2 : insert (TrieNode.node i p d sz hh false l r)
                (TrieNode.node ctr key d0 0 0 false TrieNode.nil TrieNode.nil)
                ⟨true, false, fun _ _ => false⟩ (ctr + 1) with ⟨⟨insh, inse, insi⟩, c1⟩
            simp only [hins2] at hres
            injection hres with ha1 ha2
            injection ha1 with hhd hrs hpn
            subst hhd
            obtain ⟨g1, g2, g3, g4⟩ := insert_good _ key d0 ctr _ (ctr + 1) hins2 hwf hkey
            refine ⟨g1, ?_, fun plen paddr b hu hok => g4 plen paddr b hu hok⟩
            rcases inse with _ | e
            · exact g2 rfl
            · rw [g3 (by simp)]
              rfl
          · simp only [Bool.not_true, Bool.false_eq_true, if_false] at hres
            injection hres with ha1 ha2
            injection ha1 with hhd hrs hpn
            subst hhd
            exact ⟨hwf, rfl, fun plen paddr b _ h => h⟩

/-- A well-formed trie passes the isValidLen check of the source for any
admissible minimum length. -/
theorem wf_isValidLen {t : TrieNode α} (hwf : wf t = true) :
    ∀ minLen, t.isNil = true ∨ minLen ≤ t.pfxOf.length → isValidLen t minLen = true := by
  induction t with
  | nil => exact fun _ _ => rfl
  | node i p d sz hh act l r ihl ihr =>
    intro minLen hmin
    obtain ⟨hv, hsz, hhh, hact, hc0, hc1, hwl, hwr⟩ := wf_node_iff.mp hwf
    have hminp : minLen ≤ p.length := by
      rcases hmin with hnil | hmin
      · simp [isNil] at hnil
      · simpa [pfxOf] using hmin
    have hlrec : isValidLen l (p.length + 1) = true := by
      apply ihl hwl
      cases l with
      | nil => exact Or.inl rfl
      | node i2 q d2 s2 h2 a2 l2 r2 =>
        rw [childOk_node, underPfx_iff] at hc0
        refine Or.inr ?_
        show p.length + 1 ≤ q.length
        omega
    have hrrec : isValidLen r (p.length + 1) = true := by
      apply ihr hwr
      cases r with
      | nil => exact Or.inl rfl
      | node i2 q d2 s2 h2 a2 l2 r2 =>
        rw [childOk_node, underPfx_iff] at hc1
        refine Or.inr ?_
        show p.length + 1 ≤ q.length
        omega
    have hnlt : ¬ (p.length < minLen) := by omega
    have hhq : hh = (1 + (max l.height r.height) % 2 ^ 16) % 2 ^ 16 := by omega
    cases act
    · obtain ⟨hln, hrn⟩ : l.isNil = false ∧ r.isNil = false := by
        rcases hact with h | h
        · simp at h
        · exact h
      have hszq : sz = (l.NumNodes + r.NumNodes) % 2 ^ 32 := by
        simp only [Bool.false_eq_true, if_false] at hsz
        omega
      simp [isValidLen, hln, hrn, hszq, hhq, hnlt, hlrec, hrrec]
    · have hszq : (sz + (2 ^ 32 - 1)) % 2 ^ 32 = (l.NumNodes + r.NumNodes) % 2 ^ 32 := by
        simp only [if_true] at hsz
        omega
      simp [isValidLen, hhq, hnlt, hlrec, hrrec]
      omega

/-- A well-formed trie passes the isValid check of the source. -/
theorem wf_isValid {t : TrieNode α} (hwf : wf t = true) : isValid t = true := by
  unfold isValid
  apply wf_isValidLen hwf
  cases t with
  | nil => exact Or.inl rfl
  | node i p d sz hh act l r => exact Or.inr (Nat.zero_le _)

theorem compare_contains_facts {a b : Prefix} {rev : Bool} {co ch : Nat}
    (h : compare a b = (Cmp.compareContains, rev, co, ch)) :
    a.length < b.length ∧ agreeUpTo a.length a.addr b.addr = true := by
  unfold compare at h
  by_cases hrev : b.length < a.length
  · have hlen : (b.length == a.length) = false := beq_eq_false_iff_ne.mpr (by omega)
    simp only [hrev, decide_True] at h
    rcases hc : contains b a with ⟨m, e, c0, ch0⟩
    rw [hc] at h
    obtain ⟨h1, h2, h3, h4⟩ := contains_components hc
    rw [hlen, Bool.and_false] at h2
    subst h2
    cases m <;> simp at h
  · simp only [hrev, decide_False] at h
    rcases hc : contains a b with ⟨m, e, c0, ch0⟩
    rw [hc] at h
    obtain ⟨h1, h2, h3, h4⟩ := contains_components hc
    cases hm : m <;> rw [hm] at h
    · rw [hm, Bool.false_and] at h2
      subst h2
      simp at h
    · cases he : e <;> rw [he] at h
      · rw [hm, Bool.true_and] at h2
        have hne : (a.length == b.length) = false := by rw [← h2, he]
        have hne2 : a.length ≠ b.length := by
          intro hcontra
          rw [beq_of_eq hcontra] at hne
          simp at hne
        refine ⟨by omega, ?_⟩
        rw [← h1, hm]
      · simp at h

/-- insert with both insert and update enabled never reports an error. -/
theorem insert_upsert_no_error [DecidableEq α] (me nd : TrieNode α)
    (eqf : Option α → Option α → Bool) (ctr : Nat) {rhead rins : TrieNode α}
    {rerr : Option GoErr} {ctr2 : Nat}
    (hres : insert me nd ⟨true, true, eqf⟩ ctr = (⟨rhead, rerr, rins⟩, ctr2)) :
    rerr = none := by
  induction me generalizing nd ctr rhead rerr rins ctr2 with
  | nil =>
    simp only [insert, Bool.not_true, Bool.false_eq_true, if_false] at hres
    injection hres with ha1 ha2
    injection ha1 with hhd her hin
    exact her.symm
  | node i p d sz hh act l r ihl ihr =>
    simp only [insert] at hres
    rcases hcmp : compare p nd.pfxOf with ⟨cres, rev, common, child⟩
    simp only [hcmp] at hres
    cases cres with
    | compareSame =>
      simp only [Bool.not_true, Bool.and_false, Bool.false_eq_true, if_false] at hres
      injection hres with ha1 ha2
      injection ha1 with hhd her hin
      exact her.symm
    | compareContains =>
      rcases hchv : (child == 0) with _ | _
      · rw [hchv] at hres
        simp only [Bool.false_eq_true, if_false] at hres
        rcases hrec : insert r nd ⟨true, true, eqf⟩ ctr with ⟨⟨r1h, r1e, r1i⟩, c1⟩
        simp only [hrec] at hres
        have hnone : r1e = none := ihr nd ctr hrec
        subst hnone
        rcases hcm : copyMutate (TrieNode.node i p d sz hh act l r)
            (fun n => setChild n child r1h) c1 with ⟨newNode, c2⟩
        simp only [hcm] at hres
        injection hres with ha1 ha2
        injection ha1 with hhd her hin
        exact her.symm
      · rw [hchv] at hres
        simp only [if_true] at hres
        rcases hrec : insert l nd ⟨true, true, eqf⟩ ctr with ⟨⟨r1h, r1e, r1i⟩, c1⟩
        simp only [hrec] at hres
        have hnone : r1e = none := ihl nd ctr hrec
        subst hnone
        rcases hcm : copyMutate (TrieNode.node i p d sz hh act l r)
            (fun n => setChild n child r1h) c1 with ⟨newNode, c2⟩
        simp only [hcm] at hres
        injection hres with ha1 ha2
        injection ha1 with hhd her hin
        exact her.symm
    | compareIsContained =>
      simp only [Bool.not_true, Bool.false_eq_true, if_false] at hres
      injection hres with ha1 ha2
      injection ha1 with hhd her hin
      exact her.symm
    | compareDisjoint =>
      simp only [Bool.not_true, Bool.false_eq_true, if_false] at hres
      rcases hcond : ((child == 1) != rev) with _ | _
      · rw [hcond] at hres
        simp only [Bool.false_eq_true, if_false] at hres
        injection hres with ha1 ha2
        injection ha1 with hhd her hin
        exact her.symm
      · rw [hcond] at hres
        simp only [if_true] at hres
        injection hres with ha1 ha2
        injection ha1 with hhd her hin
        exact her.symm

/-- The insert performed by the deferred branch of GetOrInsert never reports an
error: at the point where the search stopped, the node key either is shorter
than the receiver prefix, or does not match it, or matches an inactive node
exactly, and in each case the insert-only options avoid every error branch. -/
theorem insert_miss_no_error [DecidableEq α] {i0 : Nat} {p key : Prefix} {d d0 : Option α}
    {sz hh : Nat} {act : Bool} {l r : TrieNode α} {eqf : Option α → Option α → Bool}
    {ctr : Nat} {insh insi : TrieNode α} {inse : Option GoErr} {c1 : Nat}
    (hins2 : insert (TrieNode.node i0 p d sz hh act l r)
      (TrieNode.node ctr key d0 0 0 false TrieNode.nil TrieNode.nil) ⟨true, false, eqf⟩ (ctr + 1)
      = (⟨insh, inse, insi⟩, c1))
    (hcase : key.length < p.length ∨
      agreeUpTo p.length p.addr key.addr = false ∨
      (p.length = key.length ∧ act = false)) :
    inse = none := by
  simp only [insert, pfxOf] at hins2
  rcases hcmp : compare p key with ⟨cres, rev, common, child⟩
  simp only [hcmp] at hins2
  cases cres with
  | compareSame =>
    obtain ⟨hlen, hagree, _⟩ := compare_same_spec hcmp
    have hactf : act = false := by
      rcases hcase with h | h | ⟨h1, h2⟩
      · omega
      · rw [hagree] at h
        exact absurd h (by simp)
      · exact h2
    subst hactf
    simp only [Bool.false_and, Bool.false_eq_true, if_false, Bool.not_false, Bool.true_and,
      Bool.not_true, if_true] at hins2
    injection hins2 with ha1 ha2
    injection ha1 with hhd her hin
    exact her.symm
  | compareContains =>
    obtain ⟨hlt2, hagree2⟩ := compare_contains_facts hcmp
    rcases hcase with h | h | ⟨h1, h2⟩
    · omega
    · rw [hagree2] at h
      exact absurd h (by simp)
    · omega
  | compareIsContained =>
    simp only [Bool.not_true, Bool.false_eq_true, if_false] at hins2
    injection hins2 with ha1 ha2
    injection ha1 with hhd her hin
    exact her.symm
  | compareDisjoint =>
    simp only [Bool.not_true, Bool.false_eq_true, if_false] at hins2
    rcases hcond : ((child == 1) != rev) with _ | _
    · rw [hcond] at hins2
      simp only [Bool.false_eq_true, if_false] at hins2
      injection hins2 with ha1 ha2
      injection ha1 with hhd her hin
      exact her.symm
    · rw [hcond] at hins2
      simp only [if_true] at hins2
      injection hins2 with ha1 ha2
      injection ha1 with hhd her hin
      exact her.symm

/-- GetOrInsert never panics: the error path of its deferred insert is
unreachable for every receiver, key and value. -/
theorem getOrInsert_no_panic [DecidableEq α] (me : TrieNode α) (key : Prefix) (d0 : Option α)
    (ctr : Nat) {ghead gres : TrieNode α} {gpan : Bool} {ctr2 : Nat}
    (hres : GetOrInsert me key d0 ctr = (⟨ghead, gres, gpan⟩, ctr2)) : gpan = false := by
  induction me generalizing ctr ghead gres gpan ctr2 with
  | nil =>
    simp only [GetOrInsert] at hres
    rw [getOrInsertMiss_nil] at hres
    injection hres with ha1 ha2
    injection ha1 with hhd hrs hpn
    exact hpn.symm
  | node i p d sz hh act l r ihl ihr =>
    simp only [GetOrInsert] at hres
    by_cases hkl : key.length < p.length
    · simp only [hkl, if_true] at hres
      simp only [getOrInsertMiss] at hres
      rcases hins2 : insert (TrieNode.node i p d sz hh act l r)
          (TrieNode.node ctr key d0 0 0 false TrieNode.nil TrieNode.nil)
          ⟨true, false, fun _ _ => false⟩ (ctr + 1) with ⟨⟨insh, inse, insi⟩, c1⟩
      simp only [hins2] at hres
      injection hres with ha1 ha2
      injection ha1 with hhd hrs hpn
      have hnone : inse = none := insert_miss_no_error hins2 (Or.inl hkl)
      rw [← hpn, hnone]
      rfl
    · simp only [hkl, if_false] at hres
      rcases hcon : contains p key with ⟨mtch, exact0, c0, child⟩
      simp only [hcon] at hres
      obtain ⟨hm1, hm2, hm3, hm4⟩ := contains_components hcon
      cases mtch
      · simp only [Bool.not_false, if_true] at hres
        simp only [getOrInsertMiss] at hres
        rcases hins2 : insert (TrieNode.node i p d sz hh act l r)
            (TrieNode.node ctr key d0 0 0 false TrieNode.nil TrieNode.nil)
            ⟨true, false, fun _ _ => false⟩ (ctr + 1) with ⟨⟨insh, inse, insi⟩, c1⟩
        simp only [hins2] at hres
        injection hres with ha1 ha2
        injection ha1 with hhd hrs hpn
        have hnone : inse = none := insert_miss_no_error hins2 (Or.inr (Or.inl hm1.symm))
        rw [← hpn, hnone]
        rfl
      · cases exact0
        · simp only [Bool.not_true, Bool.not_false, Bool.false_eq_true, if_false, if_true] at hres
          rcases hchv : (child == 0) with _ | _
          · rw [hchv] at hres
            simp only [Bool.false_eq_true, if_false] at hres
            rcases hrec : GetOrInsert r key d0 ctr with ⟨⟨r1h, r1r, r1p⟩, c1⟩
            simp only [hrec] at hres
            rcases hcm : copyMutate (TrieNode.node i p d sz hh act l r)
                (fun n => setChild n child r1h) c1 with ⟨newNode, c2⟩
            simp only [hcm] at hres
            injection hres with ha1 ha2
            injection ha1 with hhd hrs hpn
            rw [← hpn]
            exact ihr ctr hrec
          · rw [hchv] at hres
            simp only [if_true] at hres
            rcases hrec : GetOrInsert l key d0 ctr with ⟨⟨r1h, r1r, r1p⟩, c1⟩
            simp only [hrec] at hres
            rcases hcm : copyMutate (TrieNode.node i p d sz hh act l r)
                (fun n => setChild n child r1h) c1 with ⟨newNode, c2⟩
            simp only [hcm] at hres
            injection hres with ha1 ha2
            injection ha1 with hhd hrs hpn
            rw [← hpn]
            exact ihl ctr hrec
        · obtain ⟨hlen, hagree, _⟩ := contains_exact_spec hcon rfl rfl
          simp only [Bool.not_true, Bool.false_eq_true, if_false] at hres
          cases act
          · simp only [Bool.not_false, if_true] at hres
            simp only [getOrInsertMiss] at hres
            rcases hins2 : insert (TrieNode.node i p d sz hh false l r)
                (TrieNode.node ctr key d0 0 0 false TrieNode.nil TrieNode.nil)
                ⟨true, false, fun _ _ => false⟩ (ctr + 1) with ⟨⟨insh, inse, insi⟩, c1⟩
            simp only [hins2] at hres
            injection hres with ha1 ha2
            injection ha1 with hhd hrs hpn
            have hnone : inse = none :=
              insert_miss_no_error hins2 (Or.inr (Or.inr ⟨hlen, rfl⟩))
            rw [← hpn, hnone]
            rfl
          · simp only [Bool.not_true, Bool.false_eq_true, if_false] at hres
            injection hres with ha1 ha2
            injection ha1 with hhd hrs hpn
            exact hpn.symm

theorem ptrEq_refl (t : TrieNode α) : ptrEq t t = true := by
  cases t <;> simp [ptrEq]

theorem ptrEq_false_of_id_lt {a b : TrieNode α} (ha : a.isNil = false) (hb : b.isNil = false)
    (h : a.idOf ≠ b.idOf) : ptrEq a b = false := by
  cases a with
  | nil => simp [isNil] at ha
  | node i p d sz hh act l r =>
    cases b with
    | nil => simp [isNil] at hb
    | node i2 p2 d2 sz2 hh2 act2 l2 r2 =>
      simp only [idOf] at h
      exact beq_eq_false_iff_ne.mpr h

theorem Equal_refl [DecidableEq α] (t : TrieNode α) (eqf : Option α → Option α → Bool) :
    Equal t t eqf = true := by
  cases t <;> simp [Equal, ptrEq_refl]

theorem Equal_of_parts [DecidableEq α] {i i2 : Nat} {p p2 : Prefix} {d d2 : Option α}
    {sz sz2 hh hh2 : Nat} {act act2 : Bool} {l l2 r r2 : TrieNode α}
    {eqf : Option α → Option α → Bool}
    (hact : act = act2) (hp : p = p2) (hd : act = true → eqf d d2 = true)
    (hl : Equal l l2 eqf = true) (hr : Equal r r2 eqf = true) :
    Equal (TrieNode.node i p d sz hh act l r) (TrieNode.node i2 p2 d2 sz2 hh2 act2 l2 r2) eqf
      = true := by
  subst hact
  subst hp
  have hdd : (act && !(eqf d d2)) = false := by
    cases act with
    | false => rfl
    | true => rw [hd rfl]; rfl
  by_cases hpe : ptrEq (TrieNode.node i p d sz hh act l r)
      (TrieNode.node i2 p d2 sz2 hh2 act l2 r2) = true
  · simp [Equal, hpe]
  · rw [Bool.not_eq_true] at hpe
    simp [Equal, hpe, hdd, hl, hr]

theorem exactTrieEq_equal [DecidableEq α] (a b : TrieNode α) (eqf : Option α → Option α → Bool)
    (h : exactTrieEq eqf a b = true) : Equal a b eqf = true := by
  induction a generalizing b with
  | nil =>
    cases b with
    | nil => exact Equal_refl _ _
    | node i2 p2 d2 sz2 hh2 act2 l2 r2 => simp [exactTrieEq] at h
  | node i p d sz hh act l r ihl ihr =>
    cases b with
    | nil => simp [exactTrieEq] at h
    | node i2 p2 d2 sz2 hh2 act2 l2 r2 =>
      simp only [exactTrieEq, Bool.and_eq_true] at h
      obtain ⟨⟨⟨⟨hp, hact⟩, hd⟩, hl⟩, hr⟩ := h
      refine Equal_of_parts (eq_of_beq hact) (eq_of_beq hp) ?_ (ihl _ hl) (ihr _ hr)
      intro hacttrue
      rw [hacttrue] at hd
      simpa using hd

theorem applyOp_wf [DecidableEq α] (op : Op α) (t : TrieNode α) (c : Nat)
    (hwf : wf t = true) (hkey : validPfx op.key = true) :
    wf (applyOp (t, c) op).1 = true := by
  cases op with
  | insertOp k d0 =>
    have hkey2 : validPfx k = true := hkey
    rcases hins : insert t (TrieNode.node c k d0 0 0 false TrieNode.nil TrieNode.nil)
        ⟨true, false, fun _ _ => false⟩ (c + 1) with ⟨⟨rh, re, ri⟩, c1⟩
    have hout := (insert_good t k d0 c ⟨true, false, fun _ _ => false⟩ (c + 1) hins hwf hkey2).1
    simp only [applyOp, Insert, hins]
    exact hout
  | updateOp k d0 f =>
    have hkey2 : validPfx k = true := hkey
    rcases hins : insert t (TrieNode.node c k d0 0 0 false TrieNode.nil TrieNode.nil)
        ⟨false, true, f⟩ (c + 1) with ⟨⟨rh, re, ri⟩, c1⟩
    have hout := (insert_good t k d0 c ⟨false, true, f⟩ (c + 1) hins hwf hkey2).1
    simp only [applyOp, Update, hins]
    exact hout
  | insertOrUpdateOp k d0 f =>
    have hkey2 : validPfx k = true := hkey
    rcases hins : insert t (TrieNode.node c k d0 0 0 false TrieNode.nil TrieNode.nil)
        ⟨true, true, f⟩ (c + 1) with ⟨⟨rh, re, ri⟩, c1⟩
    have hout := (insert_good t k d0 c ⟨true, true, f⟩ (c + 1) hins hwf hkey2).1
    simp only [applyOp, InsertOrUpdate, hins]
    exact hout
  | getOrInsertOp k d0 =>
    have hkey2 : validPfx k = true := hkey
    rcases hg : GetOrInsert t k d0 c with ⟨⟨gh, gr, gp⟩, c1⟩
    have hout := (getOrInsert_good t k d0 c hg hwf hkey2).1
    simp only [applyOp, hg]
    exact hout
  | deleteOp k =>
    rcases hdel : del t k (⟨false⟩ : DeleteOpts) c with ⟨⟨rh, re⟩, c1⟩
    have hout := (del_good t k ⟨false⟩ c hdel hwf).1
    simp only [applyOp, Delete, hdel]
    exact hout

theorem foldl_applyOp_wf [DecidableEq α] (ops : List (Op α)) :
    ∀ (t : TrieNode α) (c : Nat), wf t = true →
      (∀ op ∈ ops, validPfx (Op.key op) = true) →
      wf (ops.foldl applyOp (t, c)).1 = true := by
  induction ops with
  | nil =>
    intro t c hwf hkeys
    simpa using hwf
  | cons op ops ih =>
    intro t c hwf hkeys
    rw [List.foldl_cons]
    rcases hstep : applyOp (t, c) op with ⟨t1, c1⟩
    have h1 : wf t1 = true := by
      have h2 := applyOp_wf op t c hwf (hkeys op (List.mem_cons_self op ops))
      rw [hstep] at h2
      exact h2
    exact ih t1 c1 h1 (fun o ho => hkeys o (List.mem_cons_of_mem op ho))

theorem insert_err_head [DecidableEq α] (me nd : TrieNode α) (opts : InsertOpts α) (ctr : Nat)
    {rh ri : TrieNode α} {re : Option GoErr} {c2 : Nat}
    (hres : insert me nd opts ctr = (⟨rh, re, ri⟩, c2)) (herr : re ≠ none) : rh = me := by
  cases me with
  | nil =>
    simp only [insert] at hres
    by_cases hop : (!opts.insert) = true
    · rw [if_pos hop] at hres
      injection hres with ha1 ha2
      injection ha1 with hhd her hin
      exact hhd.symm
    · rw [if_neg hop] at hres
      injection hres with ha1 ha2
      injection ha1 with hhd her hin
      rw [← her] at herr
      exact absurd rfl herr
  | node i p d sz hh act l r =>
    simp only [insert] at hres
    rcases hcmp : compare p nd.pfxOf with ⟨cres, rev, common, child⟩
    simp only [hcmp] at hres
    cases cres with
    | compareSame =>
      by_cases h1 : (act && !opts.update) = true
      · rw [if_pos h1] at hres
        injection hres with ha1 ha2
        injection ha1 with hhd her hin
        exact hhd.symm
      · rw [if_neg h1] at hres
        by_cases h2 : (!act && !opts.insert) = true
        · rw [if_pos h2] at hres
          injection hres with ha1 ha2
          injection ha1 with hhd her hin
          exact hhd.symm
        · rw [if_neg h2] at hres
          injection hres with ha1 ha2
          injection ha1 with hhd her hin
          rw [← her] at herr
          exact absurd rfl herr
    | compareContains =>
      rcases hchv : (child == 0) with _ | _ <;> rw [hchv] at hres
      · simp only [Bool.false_eq_true, if_false] at hres
        rcases hrec : insert r nd opts ctr with ⟨⟨r1h, r1e, r1i⟩, c1⟩
        simp only [hrec] at hres
        cases r1e with
        | some e =>
          injection hres with ha1 ha2
          injection ha1 with hhd her hin
          exact hhd.symm
        | none =>
          rcases hcm : copyMutate (TrieNode.node i p d sz hh act l r)
              (fun n => setChild n child r1h) c1 with ⟨newNode, c3⟩
          simp only [hcm] at hres
          injection hres with ha1 ha2
          injection ha1 with hhd her hin
          rw [← her] at herr
          exact absurd rfl herr
      · simp only [if_true] at hres
        rcases hrec : insert l nd opts ctr with ⟨⟨r1h, r1e, r1i⟩, c1⟩
        simp only [hrec] at hres
        cases r1e with
        | some e =>
          injection hres with ha1 ha2
          injection ha1 with hhd her hin
          exact hhd.symm
        | none =>
          rcases hcm : copyMutate (TrieNode.node i p d sz hh act l r)
              (fun n => setChild n child r1h) c1 with ⟨newNode, c3⟩
          simp only [hcm] at hres
          injection hres with ha1 ha2
          injection ha1 with hhd her hin
          rw [← her] at herr
          exact absurd rfl herr
    | compareIsContained =>
      rcases hop : (!opts.insert) with _ | _ <;> rw [hop] at hres
      · simp only [Bool.false_eq_true, if_false] at hres
        injection hres with ha1 ha2
        injection ha1 with hhd her hin
        rw [← her] at herr
        exact absurd rfl herr
      · simp only [if_true] at hres
        injection hres with ha1 ha2
        injection ha1 with hhd her hin
        exact hhd.symm
    | compareDisjoint =>
      rcases hop : (!opts.insert) with _ | _ <;> rw [hop] at hres
      · simp only [Bool.false_eq_true, if_false] at hres
        rcases hcond : ((child == 1) != rev) with _ | _ <;> rw [hcond] at hres
        · simp only [Bool.false_eq_true, if_false] at hres
          injection hres with ha1 ha2
          injection ha1 with hhd her hin
          rw [← her] at herr
          exact absurd rfl herr
        · simp only [if_true] at hres
          injection hres with ha1 ha2
          injection ha1 with hhd her hin
          rw [← her] at herr
          exact absurd rfl herr
      · simp only [if_true] at hres
        injection hres with ha1 ha2
        injection ha1 with hhd her hin
        exact hhd.symm

theorem del_err_head [DecidableEq α] (me : TrieNode α) (key : Prefix) (opts : DeleteOpts)
    (ctr : Nat) {rh : TrieNode α} {re : Option GoErr} {c2 : Nat}
    (hres : del me key opts ctr = ((rh, re), c2)) (herr : re ≠ none) : rh = me := by
  cases me with
  | nil =>
    simp only [del] at hres
    by_cases hfl : (opts.flatten) = true
    · rw [if_pos hfl] at hres
      injection hres with ha1 ha2
      injection ha1 with hhd her
      rw [← her] at herr
      exact absurd rfl herr
    · rw [if_neg hfl] at hres
      injection hres with ha1 ha2
      injection ha1 with hhd her
      exact hhd.symm
  | node i p d sz hh act l r =>
    simp only [del] at hres
    rcases hcmp : compare p key with ⟨cres, rev, common, child⟩
    simp only [hcmp] at hres
    cases cres with
    | compareSame =>
      exfalso
      apply herr
      by_cases hfl : (opts.flatten) = true
      · rw [if_pos hfl] at hres
        injection hres with ha1 ha2
        injection ha1 with hhd her
        exact her.symm
      · rw [if_neg hfl] at hres
        by_cases hln : (l.isNil) = true
        · rw [if_pos hln] at hres
          injection hres with ha1 ha2
          injection ha1 with hhd her
          exact her.symm
        · rw [if_neg hln] at hres
          by_cases hrn : (r.isNil) = true
          · rw [if_pos hrn] at hres
            injection hres with ha1 ha2
            injection ha1 with hhd her
            exact her.symm
          · rw [if_neg hrn] at hres
            rcases hcm : copyMutate (TrieNode.node i p d sz hh act l r)
                (fun n => withData (setActive n false) none) ctr with ⟨newNode, c1⟩
            simp only [hcm] at hres
            injection hres with ha1 ha2
            injection ha1 with hhd her
            exact her.symm
    | compareContains =>
      rcases hchv : (child == 0) with _ | _ <;> rw [hchv] at hres
      · simp only [Bool.false_eq_true, if_false] at hres
        rcases hrec : del r key opts ctr with ⟨⟨nc, e1⟩, c1⟩
        simp only [hrec] at hres
        cases e1 with
        | some e =>
          injection hres with ha1 ha2
          injection ha1 with hhd her
          exact hhd.symm
        | none =>
          exfalso
          apply herr
          by_cases hcc : (nc.isNil && !act) = true
          · rw [if_pos hcc] at hres
            injection hres with ha1 ha2
            injection ha1 with hhd her
            exact her.symm
          · rw [if_neg hcc] at hres
            rcases hcm : copyMutate (TrieNode.node i p d sz hh act l r)
                (fun n => setChild n child nc) c1 with ⟨newNode, c3⟩
            simp only [hcm] at hres
            injection hres with ha1 ha2
            injection ha1 with hhd her
            exact her.symm
      · simp only [if_true] at hres
        rcases hrec : del l key opts ctr with ⟨⟨nc, e1⟩, c1⟩
        simp only [hrec] at hres
        cases e1 with
        | some e =>
          injection hres with ha1 ha2
          injection ha1 with hhd her
          exact hhd.symm
        | none =>
          exfalso
          apply herr
          by_cases hcc : (nc.isNil && !act) = true
          · rw [if_pos hcc] at hres
            injection hres with ha1 ha2
            injection ha1 with hhd her
            exact her.symm
          · rw [if_neg hcc] at hres
            rcases hcm : copyMutate (TrieNode.node i p d sz hh act l r)
                (fun n => setChild n child nc) c1 with ⟨newNode, c3⟩
            simp only [hcm] at hres
            injection hres with ha1 ha2
            injection ha1 with hhd her
            exact her.symm
    | compareIsContained =>
      rcases hfl : (opts.flatten) with _ | _ <;> rw [hfl] at hres
      · simp only [Bool.false_eq_true, if_false] at hres
        injection hres with ha1 ha2
        injection ha1 with hhd her
        exact hhd.symm
      · simp only [if_true] at hres
        injection hres with ha1 ha2
        injection ha1 with hhd her
        rw [← her] at herr
        exact absurd rfl herr
    | compareDisjoint =>
      injection hres with ha1 ha2
      injection ha1 with hhd her
      exact hhd.symm

theorem findExact_nonnil {t : TrieNode α} {key : Prefix}
    (h : (findExact t key).isNil = false) : t.isNil = false := by
  cases t with
  | nil => simp [findExact, isNil] at h
  | node i p d sz hh act l r => rfl

theorem idsBelow_node {i : Nat} {p : Prefix} {d : Option α} {sz hh : Nat} {act : Bool}
    {l r : TrieNode α} {c : Nat} (h : idsBelow (TrieNode.node i p d sz hh act l r) c = true) :
    i < c ∧ idsBelow l c = true ∧ idsBelow r c = true := by
  simp only [idsBelow, Bool.and_eq_true, decide_eq_true_eq] at h
  exact ⟨h.1.1, h.1.2, h.2⟩

theorem idsBelow_idOf {t : TrieNode α} {c : Nat} (hn : t.isNil = false)
    (h : idsBelow t c = true) : t.idOf < c := by
  cases t with
  | nil => simp [isNil] at hn
  | node i p d sz hh act l r => exact (idsBelow_node h).1

theorem copyMutate_stable [DecidableEq α] {i : Nat} {p : Prefix} {d : Option α}
    {sz hh : Nat} {act : Bool} {l r : TrieNode α} {f : TrieNode α → TrieNode α} {ctr : Nat}
    (hf : f (TrieNode.node ctr p d sz hh act l r) = TrieNode.node ctr p d sz hh act l r)
    (hsz : sz = ((l.NumNodes + r.NumNodes) % 2 ^ 32 + (if act then 1 else 0)) % 2 ^ 32)
    (hhh : hh = (1 + max l.height r.height) % 2 ^ 16) :
    copyMutate (TrieNode.node i p d sz hh act l r) f ctr
      = (TrieNode.node i p d sz hh act l r, ctr + 1) := by
  have hstep : copyMutate (TrieNode.node i p d sz hh act l r) f ctr =
      (if shallowEq (mutate (setId (TrieNode.node i p d sz hh act l r) ctr) f)
          (TrieNode.node i p d sz hh act l r) = true
       then (TrieNode.node i p d sz hh act l r, ctr + 1)
       else (mutate (setId (TrieNode.node i p d sz hh act l r) ctr) f, ctr + 1)) := rfl
  have hmut : mutate (setId (TrieNode.node i p d sz hh act l r) ctr) f
      = recompute (TrieNode.node ctr p d sz hh act l r) := by
    show recompute (f (TrieNode.node ctr p d sz hh act l r))
      = recompute (TrieNode.node ctr p d sz hh act l r)
    rw [hf]
  have hsh : shallowEq (mutate (setId (TrieNode.node i p d sz hh act l r) ctr) f)
      (TrieNode.node i p d sz hh act l r) = true := by
    rw [hmut]
    subst hsz
    subst hhh
    simp [shallowEq, recompute, ptrEq_refl]
  rw [hstep, if_pos hsh]

theorem copyMutate_setChild0_fresh [DecidableEq α] {i : Nat} {p : Prefix} {d : Option α}
    {sz hh : Nat} {act : Bool} {l r x newNode : TrieNode α} {ctr cOut : Nat}
    (hcm : copyMutate (TrieNode.node i p d sz hh act l r) (fun n => setChild n 0 x) ctr
      = (newNode, cOut))
    (hptr : ptrEq x l = false) :
    newNode = TrieNode.node ctr p d
        (((x.NumNodes + r.NumNodes) % 2 ^ 32 + if act then 1 else 0) % 2 ^ 32)
        ((1 + max x.height r.height) % 2 ^ 16) act x r ∧ cOut = ctr + 1 := by
  have hstep : copyMutate (TrieNode.node i p d sz hh act l r) (fun n => setChild n 0 x) ctr =
      (if shallowEq (mutate (setId (TrieNode.node i p d sz hh act l r) ctr)
            (fun n => setChild n 0 x)) (TrieNode.node i p d sz hh act l r) = true
       then (TrieNode.node i p d sz hh act l r, ctr + 1)
       else (mutate (setId (TrieNode.node i p d sz hh act l r) ctr) (fun n => setChild n 0 x),
         ctr + 1)) := rfl
  have hsh : shallowEq (mutate (setId (TrieNode.node i p d sz hh act l r) ctr)
      (fun n => setChild n 0 x)) (TrieNode.node i p d sz hh act l r) = false := by
    show shallowEq (TrieNode.node ctr p d
        (((x.NumNodes + r.NumNodes) % 2 ^ 32 + if act then 1 else 0) % 2 ^ 32)
        ((1 + max x.height r.height) % 2 ^ 16) act x r)
      (TrieNode.node i p d sz hh act l r) = false
    simp [shallowEq, hptr]
  rw [hstep, hsh] at hcm
  simp only [Bool.false_eq_true, if_false] at hcm
  injection hcm with h1 h2
  exact ⟨h1.symm, h2.symm⟩

theorem copyMutate_setChild1_fresh [DecidableEq α] {i : Nat} {p : Prefix} {d : Option α}
    {sz hh : Nat} {act : Bool} {l r x newNode : TrieNode α} {ctr cOut : Nat}
    (hcm : copyMutate (TrieNode.node i p d sz hh act l r) (fun n => setChild n 1 x) ctr
      = (newNode, cOut))
    (hptr : ptrEq x r = false) :
    newNode = TrieNode.node ctr p d
        (((l.NumNodes + x.NumNodes) % 2 ^ 32 + if act then 1 else 0) % 2 ^ 32)
        ((1 + max l.height x.height) % 2 ^ 16) act l x ∧ cOut = ctr + 1 := by
  have hstep : copyMutate (TrieNode.node i p d sz hh act l r) (fun n => setChild n 1 x) ctr =
      (if shallowEq (mutate (setId (TrieNode.node i p d sz hh act l r) ctr)
            (fun n => setChild n 1 x)) (TrieNode.node i p d sz hh act l r) = true
       then (TrieNode.node i p d sz hh act l r, ctr + 1)
       else (mutate (setId (TrieNode.node i p d sz hh act l r) ctr) (fun n => setChild n 1 x),
         ctr + 1)) := rfl
  have hsh : shallowEq (mutate (setId (TrieNode.node i p d sz hh act l r) ctr)
      (fun n => setChild n 1 x)) (TrieNode.node i p d sz hh act l r) = false := by
    show shallowEq (TrieNode.node ctr p d
        (((l.NumNodes + x.NumNodes) % 2 ^ 32 + if act then 1 else 0) % 2 ^ 32)
        ((1 + max l.height x.height) % 2 ^ 16) act l x)
      (TrieNode.node i p d sz hh act l r) = false
    simp [shallowEq, hptr]
  rw [hstep, hsh] at hcm
  simp only [Bool.false_eq_true, if_false] at hcm
  injection hcm with h1 h2
  exact ⟨h1.symm, h2.symm⟩

theorem getOrInsert_hit [DecidableEq α] (me : TrieNode α) (key : Prefix) (d0 : Option α)
    (ctr : Nat) {gh gres : TrieNode α} {gpan : Bool} {c2 : Nat}
    (hres : GetOrInsert me key d0 ctr = (⟨gh, gres, gpan⟩, c2))
    (hwf : wf me = true) (hhit : (findExact me key).isNil = false) :
    gh = me ∧ gres = findExact me key ∧ gpan = false := by
  induction me generalizing ctr gh gres gpan c2 with
  | nil => simp [findExact, isNil] at hhit
  | node i p d sz hh act l r ihl ihr =>
    obtain ⟨hv, hsz, hhh, hact, hc0, hc1, hwl, hwr⟩ := wf_node_iff.mp hwf
    simp only [GetOrInsert] at hres
    simp only [findExact] at hhit ⊢
    by_cases hkl : key.length < p.length
    · rw [if_pos hkl] at hhit
      simp [isNil] at hhit
    · rw [if_neg hkl] at hhit ⊢
      simp only [hkl, if_false] at hres
      rcases hcon : contains p key with ⟨mtch, ex, c0, ch0⟩
      simp only [hcon] at hres hhit ⊢
      cases mtch
      · simp [isNil] at hhit
      · cases ex
        · simp only [Bool.not_true, Bool.not_false, Bool.false_eq_true, if_false, if_true]
            at hres hhit ⊢
          rcases contains_child01 hcon with hch | hch
          · subst hch
            simp only [show ((0 : Nat) == 0) = true from rfl, if_true] at hres hhit ⊢
            rcases hrec : GetOrInsert l key d0 ctr with ⟨⟨r1h, r1r, r1p⟩, c1⟩
            simp only [hrec] at hres
            obtain ⟨ih1, ih2, ih3⟩ := ihl ctr hrec hwl hhit
            rw [ih1] at hres
            have hstable : copyMutate (TrieNode.node i p d sz hh act l r)
                (fun n => setChild n 0 l) c1
                = (TrieNode.node i p d sz hh act l r, c1 + 1) :=
              copyMutate_stable rfl hsz hhh
            simp only [hstable] at hres
            injection hres with ha1 ha2
            injection ha1 with h1 h2 h3
            exact ⟨h1.symm, ih2 ▸ h2.symm, ih3 ▸ h3.symm⟩
          · subst hch
            simp only [show ((1 : Nat) == 0) = false from rfl, Bool.false_eq_true, if_false]
              at hres hhit ⊢
            rcases hrec : GetOrInsert r key d0 ctr with ⟨⟨r1h, r1r, r1p⟩, c1⟩
            simp only [hrec] at hres
            obtain ⟨ih1, ih2, ih3⟩ := ihr ctr hrec hwr hhit
            rw [ih1] at hres
            have hstable : copyMutate (TrieNode.node i p d sz hh act l r)
                (fun n => setChild n 1 r) c1
                = (TrieNode.node i p d sz hh act l r, c1 + 1) :=
              copyMutate_stable rfl hsz hhh
            simp only [hstable] at hres
            injection hres with ha1 ha2
            injection ha1 with h1 h2 h3
            exact ⟨h1.symm, ih2 ▸ h2.symm, ih3 ▸ h3.symm⟩
        · simp only [Bool.not_true, Bool.false_eq_true, if_false] at hres hhit ⊢
          cases act
          · simp [isNil] at hhit
          · simp only [Bool.not_true, Bool.false_eq_true, if_false, if_true] at hres hhit ⊢
            injection hres with ha1 ha2
            injection ha1 with h1 h2 h3
            exact ⟨h1.symm, h2.symm, h3.symm⟩

/-- Re-inserting a key that exactly matches an existing active entry (with its
stored prefix equal to the key, update allowed and the stored value
predicate-equal to the inserted one) reports no error and returns a head that
is a fresh allocation - its id is at least i0, the id of the node allocated for
the key - yet is structurally Equal to the receiver with data compared by
decidable equality.  The counter never decreases. -/
theorem insert_exact_spec [DecidableEq α] (me : TrieNode α) {key : Prefix} {d0 : Option α}
    {i0 : Nat} {eqf : Option α → Option α → Bool} (ctr : Nat)
    {rh ri : TrieNode α} {re : Option GoErr} {c2 : Nat}
    (hres : insert me (.node i0 key d0 0 0 false .nil .nil) ⟨true, true, eqf⟩ ctr
      = (⟨rh, re, ri⟩, c2))
    (hhit : (findExact me key).isNil = false)
    (hpfx : (findExact me key).pfxOf = key)
    (heqf : eqf (findExact me key).dataOf d0 = true)
    (hids : idsBelow me i0 = true)
    (hctr : i0 < ctr) :
    re = none ∧ rh.isNil = false ∧ i0 ≤ rh.idOf ∧
      Equal rh me (fun a b => a == b) = true ∧ ctr ≤ c2 := by
  induction me generalizing ctr rh re ri c2 with
  | nil => simp [findExact, isNil] at hhit
  | node i p d sz hh act l r ihl ihr =>
    obtain ⟨hi0, hidl, hidr⟩ := idsBelow_node hids
    simp only [insert, pfxOf] at hres
    simp only [findExact] at hhit hpfx heqf
    by_cases hkl : key.length < p.length
    · rw [if_pos hkl] at hhit
      simp [isNil] at hhit
    · rw [if_neg hkl] at hhit hpfx heqf
      rcases hcon : contains p key with ⟨mtch, ex, c0, ch0⟩
      simp only [hcon] at hhit hpfx heqf
      have hrevf : decide (key.length < p.length) = false := by
        simp only [decide_eq_false_iff_not]
        exact hkl
      cases mtch
      · simp [isNil] at hhit
      · cases ex
        · simp only [Bool.not_true, Bool.not_false, Bool.false_eq_true, if_false, if_true]
            at hhit hpfx heqf
          have hcmp : compare p key = (Cmp.compareContains, false, c0, ch0) := by
            unfold compare
            rw [hrevf, hcon]
            rfl
          simp only [hcmp] at hres
          rcases contains_child01 hcon with hch | hch
          · subst hch
            simp only [show ((0 : Nat) == 0) = true from rfl, if_true] at hres hhit hpfx heqf
            rcases hrec : insert l (TrieNode.node i0 key d0 0 0 false TrieNode.nil TrieNode.nil)
                ⟨true, true, eqf⟩ ctr with ⟨⟨r1h, r1e, r1i⟩, c1⟩
            simp only [hrec] at hres
            obtain ⟨jh1, jh2, jh3, jh4, jh5⟩ := ihl ctr hrec hhit hpfx heqf hidl hctr
            subst jh1
            rcases hcm : copyMutate (TrieNode.node i p d sz hh act l r)
                (fun n => setChild n 0 r1h) c1 with ⟨newNode, c3⟩
            simp only [hcm] at hres
            injection hres with ha1 ha2
            injection ha1 with hhd her hin
            have hlnn : l.isNil = false := findExact_nonnil hhit
            have hlid := idsBelow_idOf hlnn hidl
            have hptr : ptrEq r1h l = false := ptrEq_false_of_id_lt jh2 hlnn (by omega)
            obtain ⟨hnew, hc3⟩ := copyMutate_setChild0_fresh hcm hptr
            subst hnew
            refine ⟨her.symm, ?_, ?_, ?_, by omega⟩
            · rw [← hhd]
              rfl
            · rw [← hhd]
              show i0 ≤ c1
              omega
            · rw [← hhd]
              exact Equal_of_parts rfl rfl (fun _ => by simp) jh4 (Equal_refl r _)
          · subst hch
            simp only [show ((1 : Nat) == 0) = false from rfl, Bool.false_eq_true, if_false]
              at hres hhit hpfx heqf
            rcases hrec : insert r (TrieNode.node i0 key d0 0 0 false TrieNode.nil TrieNode.nil)
                ⟨true, true, eqf⟩ ctr with ⟨⟨r1h, r1e, r1i⟩, c1⟩
            simp only [hrec] at hres
            obtain ⟨jh1, jh2, jh3, jh4, jh5⟩ := ihr ctr hrec hhit hpfx heqf hidr hctr
            subst jh1
            rcases hcm : copyMutate (TrieNode.node i p d sz hh act l r)
                (fun n => setChild n 1 r1h) c1 with ⟨newNode, c3⟩
            simp only [hcm] at hres
            injection hres with ha1 ha2
            injection ha1 with hhd her hin
            have hrnn : r.isNil = false := findExact_nonnil hhit
            have hrid := idsBelow_idOf hrnn hidr
            have hptr : ptrEq r1h r = false := ptrEq_false_of_id_lt jh2 hrnn (by omega)
            obtain ⟨hnew, hc3⟩ := copyMutate_setChild1_fresh hcm hptr
            subst hnew
            refine ⟨her.symm, ?_, ?_, ?_, by omega⟩
            · rw [← hhd]
              rfl
            · rw [← hhd]
              show i0 ≤ c1
              omega
            · rw [← hhd]
              exact Equal_of_parts rfl rfl (fun _ => by simp) (Equal_refl l _) jh4
        · simp only [Bool.not_true, Bool.false_eq_true, if_false] at hhit hpfx heqf
          cases act
          · simp [isNil] at hhit
          · simp only [if_true] at hhit hpfx heqf
            have hpq : p = key := hpfx
            have hde : eqf d d0 = true := heqf
            have hcmp : compare p key = (Cmp.compareSame, false, c0, ch0) := by
              unfold compare
              rw [hrevf, hcon]
              rfl
            simp only [hcmp] at hres
            simp only [Bool.not_true, Bool.and_false, Bool.false_and, Bool.false_eq_true,
              if_false, Bool.true_and, dataOf] at hres
            rw [hde] at hres
            simp only [if_true] at hres
            injection hres with ha1 ha2
            injection ha1 with hhd her hin
            have hlit : rh = TrieNode.node i0 key d
                (((l.NumNodes + r.NumNodes) % 2 ^ 32 + 1) % 2 ^ 32)
                ((1 + max l.height r.height) % 2 ^ 16) true l r := hhd.symm.trans rfl
            subst hlit
            refine ⟨her.symm, rfl, Nat.le_refl _, ?_, by omega⟩
            exact Equal_of_parts rfl hpq.symm (fun _ => by simp) (Equal_refl l _) (Equal_refl r _)

theorem entries_valid {t : TrieNode α} (hwf : wf t = true) :
    ∀ q (d : Option α), (q, d) ∈ entriesData t → validPfx q = true := by
  induction t with
  | nil =>
    intro q d hm
    simp [entriesData] at hm
  | node i p dd sz hh act l r ihl ihr =>
    intro q d hm
    obtain ⟨hv, hsz, hhh, hact, hc0, hc1, hwl, hwr⟩ := wf_node_iff.mp hwf
    simp only [entriesData, List.mem_append] at hm
    rcases hm with (hm | hm) | hm
    · exact ihl hwl q d hm
    · cases act with
      | false => simp at hm
      | true =>
        simp at hm
        rw [hm.1]
        exact hv
    · exact ihr hwr q d hm

theorem entries_under {t : TrieNode α} (hwf : wf t = true) :
    ∀ plen paddr b, childOk plen paddr b t = true →
      ∀ q (d : Option α), (q, d) ∈ entriesData t → underPfx plen paddr b q = true := by
  induction t with
  | nil =>
    intro plen paddr b hok q d hm
    simp [entriesData] at hm
  | node i p dd sz hh act l r ihl ihr =>
    intro plen paddr b hok q d hm
    obtain ⟨hv, hsz, hhh, hact, hc0, hc1, hwl, hwr⟩ := wf_node_iff.mp hwf
    rw [childOk_node] at hok
    have hplen : p.length ≤ 128 := (validPfx_iff.mp hv).1
    have hpaddr : p.addr < 2 ^ 128 := (validPfx_iff.mp hv).2
    simp only [entriesData, List.mem_append] at hm
    rcases hm with (hm | hm) | hm
    · exact ihl hwl plen paddr b (childOk_descend hplen hpaddr hwl hok hc0) q d hm
    · cases act with
      | false => simp at hm
      | true =>
        simp at hm
        rw [hm.1]
        exact hok
    · exact ihr hwr plen paddr b (childOk_descend hplen hpaddr hwr hok hc1) q d hm

/-- Full characterization of Match on a well-formed trie and a representable
search key: a non-nil result is an active entry whose prefix contains the key,
and every active entry containing the key forces a non-nil result, is no longer
than the result, and coincides with it when the lengths are equal. -/
theorem match_spec {H : Prefix} (hHl : H.length ≤ 128) (hHa : H.addr < 2 ^ 128)
    {t : TrieNode α} (hwf : wf t = true) :
    ((Match t H).isNil = false →
      ((Match t H).pfxOf, (Match t H).dataOf) ∈ entriesData t ∧
      containsKey (Match t H).pfxOf H = true) ∧
    (∀ q (d : Option α), (q, d) ∈ entriesData t → containsKey q H = true →
      (Match t H).isNil = false ∧ q.length ≤ (Match t H).pfxOf.length ∧
      (q.length = (Match t H).pfxOf.length →
        q = (Match t H).pfxOf ∧ d = (Match t H).dataOf)) := by
  induction t with
  | nil =>
    constructor
    · intro hcontra
      simp [Match, isNil] at hcontra
    · intro q d hm hck
      simp [entriesData] at hm
  | node i p dd sz hh act l r ihl ihr =>
    obtain ⟨hv, hsz, hhh, hact, hc0, hc1, hwl, hwr⟩ := wf_node_iff.mp hwf
    have hplen : p.length ≤ 128 := (validPfx_iff.mp hv).1
    have hpaddr : p.addr < 2 ^ 128 := (validPfx_iff.mp hv).2
    have hundL : ∀ q (d' : Option α), (q, d') ∈ entriesData l →
        underPfx p.length p.addr 0 q = true :=
      fun q d' hm => entries_under hwl p.length p.addr 0 hc0 q d' hm
    have hundR : ∀ q (d' : Option α), (q, d') ∈ entriesData r →
        underPfx p.length p.addr 1 q = true :=
      fun q d' hm => entries_under hwr p.length p.addr 1 hc1 q d' hm
    have hvalL : ∀ q (d' : Option α), (q, d') ∈ entriesData l → validPfx q = true :=
      entries_valid hwl
    have hvalR : ∀ q (d' : Option α), (q, d') ∈ entriesData r → validPfx q = true :=
      entries_valid hwr
    simp only [Match]
    by_cases hkl : H.length < p.length
    · rw [if_pos hkl]
      constructor
      · intro hcontra
        simp [isNil] at hcontra
      · intro q d hm hck
        exfalso
        simp only [containsKey, Bool.and_eq_true, decide_eq_true_eq] at hck
        simp only [entriesData, List.mem_append] at hm
        rcases hm with (hm | hm) | hm
        · have hu := hundL q d hm
          rw [underPfx_iff] at hu
          obtain ⟨hu1, hu2, hu3⟩ := hu
          omega
        · cases act with
          | false => simp at hm
          | true =>
            simp at hm
            rw [hm.1] at hck
            omega
        · have hu := hundR q d hm
          rw [underPfx_iff] at hu
          obtain ⟨hu1, hu2, hu3⟩ := hu
          omega
    · rw [if_neg hkl]
      rcases hcon : contains p H with ⟨mm, ee, cc, ch⟩
      simp only [hcon]
      obtain ⟨hm1, hm2, hm3, hm4⟩ := contains_components hcon
      cases mm
      · have hagf : agreeUpTo p.length p.addr H.addr = false := hm1.symm
        simp only [Bool.not_false, if_true]
        constructor
        · intro hcontra
          simp [isNil] at hcontra
        · intro q d hm hck
          exfalso
          simp only [containsKey, Bool.and_eq_true, decide_eq_true_eq] at hck
          simp only [entriesData, List.mem_append] at hm
          rcases hm with (hm | hm) | hm
          · have hu := hundL q d hm
            rw [underPfx_iff] at hu
            obtain ⟨hu1, hu2, hu3⟩ := hu
            have hqv := validPfx_iff.mp (hvalL q d hm)
            have h1 : agreeUpTo p.length q.addr H.addr = true :=
              agreeUpTo_mono hqv.2 hHa (by omega) hqv.1 hck.2
            have h2 : agreeUpTo p.length p.addr H.addr = true := agreeUpTo_trans hu2 h1
            rw [h2] at hagf
            simp at hagf
          · cases act with
            | false => simp at hm
            | true =>
              simp at hm
              rw [hm.1] at hck
              rw [hck.2] at hagf
              simp at hagf
          · have hu := hundR q d hm
            rw [underPfx_iff] at hu
            obtain ⟨hu1, hu2, hu3⟩ := hu
            have hqv := validPfx_iff.mp (hvalR q d hm)
            have h1 : agreeUpTo p.length q.addr H.addr = true :=
              agreeUpTo_mono hqv.2 hHa (by omega) hqv.1 hck.2
            have h2 : agreeUpTo p.length p.addr H.addr = true := agreeUpTo_trans hu2 h1
            rw [h2] at hagf
            simp at hagf
      · have hag : agreeUpTo p.length p.addr H.addr = true := hm1.symm
        cases ee
        · obtain ⟨hlt, hag2, hcc2, hchE⟩ := contains_strict_spec (by omega) hHl hcon rfl rfl
          simp only [Bool.not_true, Bool.false_eq_true, if_false]
          rcases contains_child01 hcon with hch0 | hch0
          · subst hch0
            have hbeB : beBit H.addr p.length = 0 := hchE.symm
            simp only [show ((0 : Nat) == 0) = true from rfl, if_true]
            have hrNo : ∀ q (d' : Option α), (q, d') ∈ entriesData r →
                containsKey q H = true → False := by
              intro q d' hm hck
              simp only [containsKey, Bool.and_eq_true, decide_eq_true_eq] at hck
              have hu := hundR q d' hm
              rw [underPfx_iff] at hu
              obtain ⟨hu1, hu2, hu3⟩ := hu
              have hqv := validPfx_iff.mp (hvalR q d' hm)
              have h1 : agreeUpTo (p.length + 1) q.addr H.addr = true :=
                agreeUpTo_mono hqv.2 hHa (by omega) hqv.1 hck.2
              have h2 : beBit q.addr p.length = beBit H.addr p.length :=
                agreeUpTo_beBit (by omega) h1 (by omega)
              rw [hu3, hbeB] at h2
              simp at h2
            obtain ⟨ihl1, ihl2⟩ := ihl hwl
            cases hbet : (Match l H).isNil
            · simp only [hbet, Bool.not_false, if_true]
              obtain ⟨ihm, ihck⟩ := ihl1 hbet
              constructor
              · intro _
                refine ⟨?_, ihck⟩
                simp only [entriesData, List.mem_append]
                exact Or.inl (Or.inl ihm)
              · intro q d hm hck
                simp only [entriesData, List.mem_append] at hm
                rcases hm with (hm | hm) | hm
                · obtain ⟨hx1, hx2, hx3⟩ := ihl2 q d hm hck
                  exact ⟨trivial, hx2, hx3⟩
                · cases act with
                  | false => simp at hm
                  | true =>
                    simp at hm
                    obtain ⟨hq1, hq2⟩ := hm
                    subst hq1
                    subst hq2
                    have hu := hundL _ _ ihm
                    rw [underPfx_iff] at hu
                    obtain ⟨hu1, hu2, hu3⟩ := hu
                    exact ⟨trivial, by omega, fun heq => absurd heq (by omega)⟩
                · exact (hrNo q d hm hck).elim
            · simp only [hbet, Bool.not_true, Bool.false_eq_true, if_false]
              cases act
              · simp only [Bool.not_false, if_true]
                constructor
                · intro hcontra
                  simp [isNil] at hcontra
                · intro q d hm hck
                  exfalso
                  simp only [entriesData, List.mem_append] at hm
                  rcases hm with (hm | hm) | hm
                  · have hx := (ihl2 q d hm hck).1
                    rw [hbet] at hx
                    simp at hx
                  · simp at hm
                  · exact hrNo q d hm hck
              · simp only [Bool.not_true, Bool.false_eq_true, if_false]
                constructor
                · intro _
                  refine ⟨?_, ?_⟩
                  · simp only [entriesData, List.mem_append, pfxOf, dataOf]
                    refine Or.inl (Or.inr ?_)
                    simp
                  · simp only [containsKey, pfxOf, Bool.and_eq_true, decide_eq_true_eq]
                    exact ⟨by omega, hag⟩
                · intro q d hm hck
                  simp only [entriesData, List.mem_append] at hm
                  rcases hm with (hm | hm) | hm
                  · exfalso
                    have hx := (ihl2 q d hm hck).1
                    rw [hbet] at hx
                    simp at hx
                  · simp at hm
                    obtain ⟨hq1, hq2⟩ := hm
                    subst hq1
                    subst hq2
                    exact ⟨rfl, Nat.le_refl _, fun _ => ⟨rfl, rfl⟩⟩
                  · exact (hrNo q d hm hck).elim
          · subst hch0
            have hbeB : beBit H.addr p.length = 1 := hchE.symm
            simp only [show ((1 : Nat) == 0) = false from rfl, Bool.false_eq_true, if_false]
            have hlNo : ∀ q (d' : Option α), (q, d') ∈ entriesData l →
                containsKey q H = true → False := by
              intro q d' hm hck
              simp only [containsKey, Bool.and_eq_true, decide_eq_true_eq] at hck
              have hu := hundL q d' hm
              rw [underPfx_iff] at hu
              obtain ⟨hu1, hu2, hu3⟩ := hu
              have hqv := validPfx_iff.mp (hvalL q d' hm)
              have h1 : agreeUpTo (p.length + 1) q.addr H.addr = true :=
                agreeUpTo_mono hqv.2 hHa (by omega) hqv.1 hck.2
              have h2 : beBit q.addr p.length = beBit H.addr p.length :=
                agreeUpTo_beBit (by omega) h1 (by omega)
              rw [hu3, hbeB] at h2
              simp at h2
            obtain ⟨ihr1, ihr2⟩ := ihr hwr
            cases hbet : (Match r H).isNil
            · simp only [hbet, Bool.not_false, if_true]
              obtain ⟨ihm, ihck⟩ := ihr1 hbet
              constructor
              · intro _
                refine ⟨?_, ihck⟩
                simp only [entriesData, List.mem_append]
                exact Or.inr ihm
              · intro q d hm hck
                simp only [entriesData, List.mem_append] at hm
                rcases hm with (hm | hm) | hm
                · exact (hlNo q d hm hck).elim
                · cases act with
                  | false => simp at hm
                  | true =>
                    simp at hm
                    obtain ⟨hq1, hq2⟩ := hm
                    subst hq1
                    subst hq2
                    have hu := hundR _ _ ihm
                    rw [underPfx_iff] at hu
                    obtain ⟨hu1, hu2, hu3⟩ := hu
                    exact ⟨trivial, by omega, fun heq => absurd heq (by omega)⟩
                · obtain ⟨hx1, hx2, hx3⟩ := ihr2 q d hm hck
                  exact ⟨trivial, hx2, hx3⟩
            · simp only [hbet, Bool.not_true, Bool.false_eq_true, if_false]
              cases act
              · simp only [Bool.not_false, if_true]
                constructor
                · intro hcontra
                  simp [isNil] at hcontra
                · intro q d hm hck
                  exfalso
                  simp only [entriesData, List.mem_append] at hm
                  rcases hm with (hm | hm) | hm
                  · exact hlNo q d hm hck
                  · simp at hm
                  · have hx := (ihr2 q d hm hck).1
                    rw [hbet] at hx
                    simp at hx
              · simp only [Bool.not_true, Bool.false_eq_true, if_false]
                constructor
                · intro _
                  refine ⟨?_, ?_⟩
                  · simp only [entriesData, List.mem_append, pfxOf, dataOf]
                    refine Or.inl (Or.inr ?_)
                    simp
                  · simp only [containsKey, pfxOf, Bool.and_eq_true, decide_eq_true_eq]
                    exact ⟨by omega, hag⟩
                · intro q d hm hck
                  simp only [entriesData, List.mem_append] at hm
                  rcases hm with (hm | hm) | hm
                  · exact (hlNo q d hm hck).elim
                  · simp at hm
                    obtain ⟨hq1, hq2⟩ := hm
                    subst hq1
                    subst hq2
                    exact ⟨rfl, Nat.le_refl _, fun _ => ⟨rfl, rfl⟩⟩
                  · exfalso
                    have hx := (ihr2 q d hm hck).1
                    rw [hbet] at hx
                    simp at hx
        · obtain ⟨hlen, hagE, hccE⟩ := contains_exact_spec hcon rfl rfl
          simp only [Bool.not_true, Bool.false_eq_true, if_false, if_true, isNil]
          have hLno : ∀ q (d' : Option α), (q, d') ∈ entriesData l →
              containsKey q H = true → False := by
            intro q d' hm hck
            have hu := hundL q d' hm
            rw [underPfx_iff] at hu
            obtain ⟨hu1, hu2, hu3⟩ := hu
            simp only [containsKey, Bool.and_eq_true, decide_eq_true_eq] at hck
            omega
          have hRno : ∀ q (d' : Option α), (q, d') ∈ entriesData r →
              containsKey q H = true → False := by
            intro q d' hm hck
            have hu := hundR q d' hm
            rw [underPfx_iff] at hu
            obtain ⟨hu1, hu2, hu3⟩ := hu
            simp only [containsKey, Bool.and_eq_true, decide_eq_true_eq] at hck
            omega
          cases act
          · simp only [Bool.not_false, if_true]
            constructor
            · intro hcontra
              simp [isNil] at hcontra
            · intro q d hm hck
              exfalso
              simp only [entriesData, List.mem_append] at hm
              rcases hm with (hm | hm) | hm
              · exact hLno q d hm hck
              · simp at hm
              · exact hRno q d hm hck
          · simp only [Bool.not_true, Bool.false_eq_true, if_false]
            constructor
            · intro _
              refine ⟨?_, ?_⟩
              · simp only [entriesData, List.mem_append, pfxOf, dataOf]
                refine Or.inl (Or.inr ?_)
                simp
              · simp only [containsKey, pfxOf, Bool.and_eq_true, decide_eq_true_eq]
                exact ⟨by omega, hag⟩
            · intro q d hm hck
              simp only [entriesData, List.mem_append] at hm
              rcases hm with (hm | hm) | hm
              · exact (hLno q d hm hck).elim
              · simp at hm
                obtain ⟨hq1, hq2⟩ := hm
                subst hq1
                subst hq2
                exact ⟨trivial, Nat.le_refl _, fun _ => ⟨rfl, rfl⟩⟩
              · exact (hRno q d hm hck).elim

/-! The ten claims. -/

/-- C1: LPM correctness of Match on a well-formed trie with a representable
search key.  A nil result means no active entry's prefix contains the key; a
non-nil result is an active entry whose prefix contains the key, every active
entry containing the key is at most as long as it, and an entry of equal
length is that entry itself: Match returns the unique longest containing
active entry. -/
theorem C1_match_lpm {α : Type} (t : TrieNode α) (H : Prefix) (hwf : wf t = true)
    (hHl : H.length ≤ 128) (hHa : H.addr < 2 ^ 128) :
    ((Match t H).isNil = true →
      ∀ q (d : Option α), (q, d) ∈ entriesData t → containsKey q H = false) ∧
    ((Match t H).isNil = false →
      ((Match t H).pfxOf, (Match t H).dataOf) ∈ entriesData t ∧
      containsKey (Match t H).pfxOf H = true ∧
      (∀ q (d : Option α), (q, d) ∈ entriesData t → containsKey q H = true →
        q.length ≤ (Match t H).pfxOf.length ∧
        (q.length = (Match t H).pfxOf.length →
          q = (Match t H).pfxOf ∧ d = (Match t H).dataOf))) := by
  obtain ⟨hs1, hs2⟩ := match_spec hHl hHa hwf
  constructor
  · intro hnil q d hm
    by_contra hck
    rw [Bool.not_eq_false] at hck
    have hx := (hs2 q d hm hck).1
    rw [hnil] at hx
    simp at hx
  · intro hnn
    obtain ⟨hmem, hck⟩ := hs1 hnn
    refine ⟨hmem, hck, ?_⟩
    intro q d hm hck2
    exact ⟨(hs2 q d hm hck2).2.1, (hs2 q d hm hck2).2.2⟩

/-- Witness for C1 at a one-entry trie and a 32-bit key it contains. -/
theorem C1_match_lpm_witness :
    ((Match sampleLeaf ⟨0, 32⟩).isNil = true →
      ∀ q (d : Option Nat), (q, d) ∈ entriesData sampleLeaf →
        containsKey q ⟨0, 32⟩ = false) ∧
    ((Match sampleLeaf ⟨0, 32⟩).isNil = false →
      ((Match sampleLeaf ⟨0, 32⟩).pfxOf, (Match sampleLeaf ⟨0, 32⟩).dataOf)
        ∈ entriesData sampleLeaf ∧
      containsKey (Match sampleLeaf ⟨0, 32⟩).pfxOf ⟨0, 32⟩ = true ∧
      (∀ q (d : Option Nat), (q, d) ∈ entriesData sampleLeaf →
        containsKey q ⟨0, 32⟩ = true →
        q.length ≤ (Match sampleLeaf ⟨0, 32⟩).pfxOf.length ∧
        (q.length = (Match sampleLeaf ⟨0, 32⟩).pfxOf.length →
          q = (Match sampleLeaf ⟨0, 32⟩).pfxOf ∧
          d = (Match sampleLeaf ⟨0, 32⟩).dataOf))) :=
  C1_match_lpm sampleLeaf ⟨0, 32⟩ (by decide) (by decide) (by decide)

/-- C2: for every sequence of Insert, Update, InsertOrUpdate, GetOrInsert and
Delete operations with representable keys, run from the empty trie, the root
passes the source's validity check after every step (every prefix of the
sequence). -/
theorem C2_sequence_valid {α : Type} [DecidableEq α] (ops : List (Op α)) (n : Nat)
    (hkeys : ∀ op ∈ ops, validPfx (Op.key op) = true) :
    isValid (runOps (List.take n ops)).1 = true := by
  apply wf_isValid
  exact foldl_applyOp_wf (List.take n ops) TrieNode.nil 0 rfl
    (fun op hop => hkeys op (List.take_subset n ops hop))

/-- Witness for C2 on a one-operation sequence. -/
theorem C2_sequence_valid_witness :
    isValid (runOps (List.take 1 [Op.insertOp (⟨0, 8⟩ : Prefix) (some (1 : Nat))])).1
      = true :=
  C2_sequence_valid [Op.insertOp (⟨0, 8⟩ : Prefix) (some (1 : Nat))] 1 (by decide)

/-- C3: failed operations leave the trie unchanged.  Whenever insert (the
engine behind Insert and Update) or del (the engine behind Delete) reports a
non-nil error, the head it returns is the original root itself, hence
pointer-equal to it. -/
theorem C3_error_no_mutation {α : Type} [DecidableEq α] (me nd : TrieNode α)
    (opts : InsertOpts α) (key : Prefix) (dopts : DeleteOpts) (ctr ctr2 : Nat)
    {rh ri rh2 : TrieNode α} {re re2 : Option GoErr} {c2 c2' : Nat}
    (h1 : insert me nd opts ctr = (⟨rh, re, ri⟩, c2))
    (h2 : del me key dopts ctr2 = ((rh2, re2), c2')) :
    (re ≠ none → rh = me ∧ ptrEq rh me = true) ∧
    (re2 ≠ none → rh2 = me ∧ ptrEq rh2 me = true) := by
  constructor
  · intro herr
    have hx := insert_err_head me nd opts ctr h1 herr
    refine ⟨hx, ?_⟩
    rw [hx]
    exact ptrEq_refl me
  · intro herr
    have hx := del_err_head me key dopts ctr2 h2 herr
    refine ⟨hx, ?_⟩
    rw [hx]
    exact ptrEq_refl me

/-- Witness for C3: an update-only insert into the empty trie fails with
keyDoesNotExistToUpdate, a strict delete from it fails with
cannotDeleteFromNil, and both leave the nil root in place. -/
theorem C3_error_no_mutation_witness :
    (some GoErr.keyDoesNotExistToUpdate ≠ none →
      (TrieNode.nil : TrieNode Nat) = TrieNode.nil ∧
      ptrEq (TrieNode.nil : TrieNode Nat) TrieNode.nil = true) ∧
    (some GoErr.cannotDeleteFromNil ≠ none →
      (TrieNode.nil : TrieNode Nat) = TrieNode.nil ∧
      ptrEq (TrieNode.nil : TrieNode Nat) TrieNode.nil = true) :=
  C3_error_no_mutation TrieNode.nil (TrieNode.node 0 ⟨0, 8⟩ none 0 0 false .nil .nil)
    ⟨false, true, fun _ _ => false⟩ ⟨0, 8⟩ ⟨false⟩ 1 0 rfl rfl

/-- C4: GetOrInsert and InsertOrUpdate never fail: on every receiver, key and
value the panic flag of both (raised exactly when the internal insert reports
an error) is false. -/
theorem C4_never_fail {α : Type} [DecidableEq α] (me : TrieNode α) (key : Prefix)
    (d0 : Option α) (eqf : Option α → Option α → Bool) (ctr : Nat) :
    (GetOrInsert me key d0 ctr).1.panicked = false ∧
    ((InsertOrUpdate me key d0 eqf ctr).1).2 = false := by
  constructor
  · rcases hres : GetOrInsert me key d0 ctr with ⟨⟨gh, gr, gp⟩, c2⟩
    exact getOrInsert_no_panic me key d0 ctr hres
  · rcases hins : insert me (TrieNode.node ctr key d0 0 0 false TrieNode.nil TrieNode.nil)
        ⟨true, true, eqf⟩ (ctr + 1) with ⟨⟨ih0, ie, ii⟩, c1⟩
    have hnone : ie = none := insert_upsert_no_error me _ eqf (ctr + 1) hins
    simp only [InsertOrUpdate, hins, hnone]
    rfl

/-- C5: refutation at a concrete input.  The claim says del with flatten true
never errors, yet deleting a key disjoint from the root of a one-entry trie
with flatten true returns the key-not-found error: the compareDisjoint arm of
del ignores opts.flatten. -/
theorem C5_flatten_delete_errors :
    (del (Insert (TrieNode.nil : TrieNode Nat) ⟨0, 8⟩ (some 1) 0).1.1
      ⟨2 ^ 127, 8⟩ ⟨true⟩ (Insert (TrieNode.nil : TrieNode Nat) ⟨0, 8⟩ (some 1) 0).2).1.2
      = some GoErr.keyNotFound := by
  rfl

/-- C6: amended.  Re-inserting through InsertOrUpdate a key that exactly
matches an existing active entry (stored prefix equal to the key) with a
predicate-equal value does not panic and returns a root that is structurally
Equal to the old trie (the old data value is reused), but that root is a
fresh allocation, NOT pointer-equal to the old root as the claim asserts. -/
theorem C6_reinsert_equal_fresh {α : Type} [DecidableEq α] (T : TrieNode α) (key : Prefix)
    (v : Option α) (eqf : Option α → Option α → Bool) (ctr : Nat)
    {rh : TrieNode α} {pan : Bool} {c2 : Nat}
    (hres : InsertOrUpdate T key v eqf ctr = ((rh, pan), c2))
    (hhit : (findExact T key).isNil = false)
    (hpfx : (findExact T key).pfxOf = key)
    (heqf : eqf (findExact T key).dataOf v = true)
    (hids : idsBelow T ctr = true) :
    ptrEq rh T = false ∧ Equal rh T (fun a b => a == b) = true ∧ pan = false := by
  rcases hins : insert T (TrieNode.node ctr key v 0 0 false TrieNode.nil TrieNode.nil)
      ⟨true, true, eqf⟩ (ctr + 1) with ⟨⟨ih0, ie, ii⟩, c1⟩
  obtain ⟨je, jn, jid, jeq, jc⟩ :=
    insert_exact_spec T (ctr + 1) hins hhit hpfx heqf hids (Nat.lt_succ_self ctr)
  have hru : InsertOrUpdate T key v eqf ctr = ((ih0, ie.isSome), c1) := by
    simp only [InsertOrUpdate, hins]
  rw [hres] at hru
  injection hru with hx hy
  injection hx with hx1 hx2
  subst hx1
  refine ⟨?_, jeq, ?_⟩
  · have hTnn : T.isNil = false := findExact_nonnil hhit
    have hTid : T.idOf < ctr := idsBelow_idOf hTnn hids
    exact ptrEq_false_of_id_lt jn hTnn (by omega)
  · rw [hx2, je]
    rfl

/-- Witness for C6: re-inserting the entry of the one-entry sample trie with
an equal value yields a fresh equal root. -/
theorem C6_reinsert_equal_fresh_witness :
    ptrEq (TrieNode.node 1 ⟨0, 8⟩ (some 5) 1 1 true .nil .nil : TrieNode Nat)
      sampleLeaf = false ∧
    Equal (TrieNode.node 1 ⟨0, 8⟩ (some 5) 1 1 true .nil .nil : TrieNode Nat)
      sampleLeaf (fun a b => a == b) = true ∧
    (false : Bool) = false :=
  C6_reinsert_equal_fresh sampleLeaf ⟨0, 8⟩ (some 5) (fun a b => a == b) 1 rfl
    (by decide) (by decide) (by decide) (by decide)

/-- Counterexample for C6 as claimed: after a predicate-equal re-insert, the
new root is not pointer-equal to the old one, even though the two tries are
structurally Equal - the pointer identity of the existing node is not
reused. -/
theorem C6_pointer_reuse_counterexample :
    ptrEq (InsertOrUpdate sampleLeaf ⟨0, 8⟩ (some 5) (fun a b => a == b) 1).1.1
      sampleLeaf = false ∧
    Equal (InsertOrUpdate sampleLeaf ⟨0, 8⟩ (some 5) (fun a b => a == b) 1).1.1
      sampleLeaf (fun a b => a == b) = true := by
  constructor
  · rfl
  · rfl

/-- C7: amended.  Equal compares prefixes with the Go equality on the whole
struct - all 128 address bits including the host bits beyond the length - so
it returns true for tries whose corresponding nodes have identical prefixes,
identical active flags, predicate-equal data on active nodes and recursively
corresponding children.  Prefix equality in the spec's sense (host bits free)
is not sufficient; see the counterexample. -/
theorem C7_equal_of_exact {α : Type} [DecidableEq α] (a b : TrieNode α)
    (eqf : Option α → Option α → Bool) (h : exactTrieEq eqf a b = true) :
    Equal a b eqf = true :=
  exactTrieEq_equal a b eqf h

/-- Witness for C7: two single-entry tries identical except for their
allocation ids are Equal. -/
theorem C7_equal_of_exact_witness :
    Equal (TrieNode.node 0 ⟨0, 8⟩ (some 5) 1 1 true .nil .nil : TrieNode Nat)
      (TrieNode.node 7 ⟨0, 8⟩ (some 5) 1 1 true .nil .nil)
      (fun a b => a == b) = true :=
  C7_equal_of_exact (TrieNode.node 0 ⟨0, 8⟩ (some 5) 1 1 true .nil .nil)
    (TrieNode.node 7 ⟨0, 8⟩ (some 5) 1 1 true .nil .nil) (fun a b => a == b) rfl

/-- Counterexample for C7 as claimed: two single-entry tries whose entries
differ only in a host bit beyond the prefix length are equal in the spec's
sense, yet Equal returns false. -/
theorem C7_spec_equality_counterexample :
    specTrieEq (fun a b => a == b)
      (TrieNode.node 0 ⟨1, 8⟩ (some 5) 1 1 true .nil .nil : TrieNode Nat)
      (TrieNode.node 1 ⟨0, 8⟩ (some 5) 1 1 true .nil .nil) = true ∧
    Equal (TrieNode.node 0 ⟨1, 8⟩ (some 5) 1 1 true .nil .nil : TrieNode Nat)
      (TrieNode.node 1 ⟨0, 8⟩ (some 5) 1 1 true .nil .nil)
      (fun a b => a == b) = false := by
  constructor
  · rfl
  · rfl

/-- C8: characterization of contains on representable prefixes with
shorter.length at most longer.length: matches is the masked comparison of the
first shorter.length bits; on a match exact is the length equality and common
is shorter.length; on a mismatch common is the count of leading zeros of the
xor of the addresses; and whenever not exact, child is the bit of longer.addr
at position common, 0 or 1. -/
theorem C8_contains_spec (s l : Prefix) {m e : Bool} {c0 ch0 : Nat}
    (hs : validPfx s = true) (hl : validPfx l = true) (hsl : s.length ≤ l.length)
    (hres : contains s l = (m, e, c0, ch0)) :
    m = (uand s.addr (topMask s.length) == uand l.addr (topMask s.length)) ∧
    (m = true → e = (s.length == l.length) ∧ c0 = s.length) ∧
    (m = false → e = false ∧ c0 = leadingZeros (uxor s.addr l.addr)) ∧
    (e = false → ch0 = beBit l.addr c0 ∧ (ch0 = 0 ∨ ch0 = 1)) := by
  obtain ⟨hm1, hm2, hm3, hm4⟩ := contains_components hres
  have hsk := validPfx_iff.mp hs
  have hlk := validPfx_iff.mp hl
  refine ⟨hm1, ?_, ?_, ?_⟩
  · intro hmt
    constructor
    · rw [hm2, hmt, Bool.true_and]
    · rw [hm3, hmt]
      simp
  · intro hmf
    constructor
    · rw [hm2, hmf, Bool.false_and]
    · rw [hm3, hmf]
      simp
  · intro hef
    have hch01 : ch0 = 0 ∨ ch0 = 1 := contains_child01 hres
    have hc0le : c0 ≤ 127 := by
      cases hq : m
      · have hxe : s.addr ≠ l.addr := by
          intro hcontra
          have hmt : m = true := by
            rw [hm1, hcontra]
            exact agreeUpTo_refl _ _
          rw [hq] at hmt
          simp at hmt
        have hx0 : uxor s.addr l.addr ≠ 0 := by
          unfold uxor
          simpa [Nat.xor_eq_zero] using hxe
        have hlz : leadingZeros (uxor s.addr l.addr) < 128 :=
          leadingZeros_lt hx0 (uxor_lt_two_pow hsk.2 hlk.2)
        rw [hm3, hq]
        simp only [Bool.false_eq_true, if_false]
        omega
      · have hne : (s.length == l.length) = false := by
          cases hq2 : (s.length == l.length)
          · rfl
          · rw [hq, hq2] at hm2
            rw [hm2] at hef
            simp at hef
        have hne2 : s.length ≠ l.length := by
          intro hcontra
          rw [beq_of_eq hcontra] at hne
          simp at hne
        rw [hm3, hq]
        simp only [if_true]
        omega
    refine ⟨?_, hch01⟩
    rw [hm4, hef]
    simp only [Bool.false_eq_true, if_false]
    exact pivot_child_eq_beBit hc0le

/-- Witness for C8 on a contained pair of prefixes. -/
theorem C8_contains_spec_witness :
    ((true : Bool) = (uand (0 : Nat) (topMask 8) == uand (0 : Nat) (topMask 8))) ∧
    ((true : Bool) = true → (false : Bool) = ((8 : Nat) == 16) ∧ (8 : Nat) = 8) ∧
    ((true : Bool) = false → (false : Bool) = false ∧
      (8 : Nat) = leadingZeros (uxor 0 0)) ∧
    ((false : Bool) = false → (0 : Nat) = beBit 0 8 ∧ ((0 : Nat) = 0 ∨ (0 : Nat) = 1)) :=
  C8_contains_spec ⟨0, 8⟩ ⟨0, 16⟩ (by decide) (by decide) (by decide) rfl

set_option maxRecDepth 100000 in
/-- C9: inserting the 128-bit analogues of 10.0.0.0/24 and 10.0.1.0/24 (top
32 bits of the address, first difference at bit 23) into an empty trie yields
an inactive structural join at the 23-bit common prefix, with 2 entries,
height 2, and the two inserted entries as its children in slots 0 and 1;
deleting the first key then promotes the survivor: the new root is
pointer-equal to the other child, with 1 entry and height 1, and neither
operation errors. -/
theorem C9_join_and_promote :
    (let pA : Prefix := ⟨0x0A000000 * 2 ^ 96, 24⟩
     let pB : Prefix := ⟨0x0A000100 * 2 ^ 96, 24⟩
     let s1 := Insert (TrieNode.nil : TrieNode Nat) pA (some 1) 0
     let s2 := Insert s1.1.1 pB (some 2) s1.2
     let t2 := s2.1.1
     let s3 := Delete t2 pA s2.2
     let t3 := s3.1.1
     (t2.pfxOf == ⟨0x0A000000 * 2 ^ 96, 23⟩) && (t2.active == false) &&
     (t2.height == 2) && (t2.NumNodes == 2) &&
     ((t2.getChild 0).pfxOf == pA) && ((t2.getChild 0).dataOf == some 1) &&
     ((t2.getChild 0).active == true) &&
     ((t2.getChild 1).pfxOf == pB) && ((t2.getChild 1).dataOf == some 2) &&
     ((t2.getChild 1).active == true) &&
     (s2.1.2 == none) && (s3.1.2 == none) &&
     ptrEq t3 (t2.getChild 1) && (t3.height == 1) && (t3.NumNodes == 1)) = true := by
  rfl

/-- C10: when the trie already holds an active entry exactly matching the
search key, GetOrInsert returns the root itself (pointer-equal head, no fresh
node reachable from it), yields the existing node - whose Data is the stored
value, not the supplied default - and does not panic. -/
theorem C10_getOrInsert_existing {α : Type} [DecidableEq α] (me : TrieNode α)
    (key : Prefix) (d0 : Option α) (ctr : Nat) (hwf : wf me = true)
    (hhit : (findExact me key).isNil = false) :
    (GetOrInsert me key d0 ctr).1.head = me ∧
    ptrEq (GetOrInsert me key d0 ctr).1.head me = true ∧
    (GetOrInsert me key d0 ctr).1.result = findExact me key ∧
    (GetOrInsert me key d0 ctr).1.result.dataOf = (findExact me key).dataOf ∧
    (GetOrInsert me key d0 ctr).1.panicked = false := by
  rcases hres : GetOrInsert me key d0 ctr with ⟨⟨gh, gr, gp⟩, c2⟩
  obtain ⟨h1, h2, h3⟩ := getOrInsert_hit me key d0 ctr hres hwf hhit
  subst h1
  subst h2
  subst h3
  exact ⟨rfl, ptrEq_refl _, rfl, rfl, rfl⟩

/-- Witness for C10 on the one-entry sample trie and its own key. -/
theorem C10_getOrInsert_existing_witness :
    (GetOrInsert sampleLeaf ⟨0, 8⟩ (some 99) 5).1.head = sampleLeaf ∧
    ptrEq (GetOrInsert sampleLeaf ⟨0, 8⟩ (some 99) 5).1.head sampleLeaf = true ∧
    (GetOrInsert sampleLeaf ⟨0, 8⟩ (some 99) 5).1.result = findExact sampleLeaf ⟨0, 8⟩ ∧
    (GetOrInsert sampleLeaf ⟨0, 8⟩ (some 99) 5).1.result.dataOf
      = (findExact sampleLeaf ⟨0, 8⟩).dataOf ∧
    (GetOrInsert sampleLeaf ⟨0, 8⟩ (some 99) 5).1.panicked = false :=
  C10_getOrInsert_existing sampleLeaf ⟨0, 8⟩ (some 99) 5 (by decide) (by decide)

end TrieNode

end Addrs

